import Mathlib

/-!
Verification of the opx-build dependency-resolution core.

This file gives a shallow embedding of the package/version data model and
the dependency resolver of `opx_get_packages.py`, and of the package
restriction parser/serializer and install filter of `opx_rel_pkgasm.py`,
together with theorems checking the natural-language specification
against that code.

Conventions of the embedding:
* Python strings are `String` (or `List Char` inside the parsers).
* Python sets of `VersionWrapper` objects are lists deduplicated with the
  wrapper's equality (pair of parent-package name and version string);
  set iteration order, which is unspecified in Python, is determinized to
  first-insertion order.
* Python exceptions are `Except`/`Option` results.  The unbounded
  recursion of `_fetch_package` is embedded with an explicit fuel
  argument; exhausting the fuel yields the distinguished error
  `RErr.outOfFuel`, and termination of the Python code corresponds to a
  proof that sufficient fuel is never exhausted.
-/

/-! ### Generic ordering machinery

`natCmp`/`charCmp`/`listCmp` model Python's comparison of ints, single
characters and lists (lexicographic, shorter prefix first). -/

def natCmp (a b : Nat) : Ordering :=
  if a < b then .lt else if b < a then .gt else .eq

def charCmp (a b : Char) : Ordering :=
  natCmp a.toNat b.toNat

def listCmp (f : α → α → Ordering) : List α → List α → Ordering
  | [], [] => .eq
  | [], _ :: _ => .lt
  | _ :: _, [] => .gt
  | a :: as, b :: bs =>
    match f a b with
    | .eq => listCmp f as bs
    | o => o

/-! ### Debian version comparison

Embedding of the dpkg/apt native version ordering used by
`apt_pkg.check_dep` (dependency membership tests).  A version string is
split into epoch, upstream part and revision; the parts are compared by
`verrevcmp`, which alternates non-digit runs (character order: `~` first,
then end-of-string, then letters, then other characters) and numeric
digit runs. -/

def digitVal (c : Char) : Nat := c.toNat - 48

def natVal (l : List Char) : Nat :=
  l.foldl (fun a c => 10 * a + digitVal c) 0

/-- Character weight used by dpkg for non-digit runs: `~` sorts before
everything (weight -1), end-of-string has weight 0, letters sort by code,
and all other characters sort after letters. -/
def dpkgOrd (c : Char) : Int :=
  if c = '~' then -1
  else if c.isAlpha then (c.toNat : Int)
  else (c.toNat : Int) + 256

def intCmp (a b : Int) : Ordering :=
  if a < b then .lt else if b < a then .gt else .eq

/-- Compare two non-digit runs character-wise with `dpkgOrd`, a missing
character counting as weight 0.  Structural recursion on a fuel argument;
every step consumes at least one character, so the fuel supplied by
`cmpNonDig` is always sufficient. -/
def cmpNonDigAux : Nat → List Char → List Char → Ordering
  | 0, _, _ => .eq
  | _, [], [] => .eq
  | fuel + 1, [], b :: bs =>
    match intCmp 0 (dpkgOrd b) with
    | .eq => cmpNonDigAux fuel [] bs
    | o => o
  | fuel + 1, a :: as, [] =>
    match intCmp (dpkgOrd a) 0 with
    | .eq => cmpNonDigAux fuel as []
    | o => o
  | fuel + 1, a :: as, b :: bs =>
    match intCmp (dpkgOrd a) (dpkgOrd b) with
    | .eq => cmpNonDigAux fuel as bs
    | o => o

def cmpNonDig (a b : List Char) : Ordering :=
  cmpNonDigAux (a.length + b.length) a b

/-- Tokenize a version part into alternating (non-digit run, numeric value
of the following digit run) pairs, as consumed by dpkg's `verrevcmp`.
Structural recursion on a fuel argument; every step consumes at least one
character, so fuel equal to the input length (as supplied by `verTokens`)
is always sufficient. -/
def verTokensAux : Nat → List Char → List (List Char × Nat)
  | 0, _ => []
  | _, [] => []
  | fuel + 1, c :: cs =>
    ((c :: cs).takeWhile (fun x => !x.isDigit),
      natVal (((c :: cs).dropWhile (fun x => !x.isDigit)).takeWhile Char.isDigit)) ::
    verTokensAux fuel (((c :: cs).dropWhile (fun x => !x.isDigit)).dropWhile Char.isDigit)

def verTokens (l : List Char) : List (List Char × Nat) :=
  verTokensAux l.length l

def cmpVerTokensAux : Nat → List (List Char × Nat) → List (List Char × Nat) → Ordering
  | 0, _, _ => .eq
  | _, [], [] => .eq
  | fuel + 1, [], (nd, n) :: bs =>
    match cmpNonDig [] nd with
    | .eq => match natCmp 0 n with
             | .eq => cmpVerTokensAux fuel [] bs
             | o => o
    | o => o
  | fuel + 1, (nd, n) :: as, [] =>
    match cmpNonDig nd [] with
    | .eq => match natCmp n 0 with
             | .eq => cmpVerTokensAux fuel as []
             | o => o
    | o => o
  | fuel + 1, (nda, na) :: as, (ndb, nb) :: bs =>
    match cmpNonDig nda ndb with
    | .eq => match natCmp na nb with
             | .eq => cmpVerTokensAux fuel as bs
             | o => o
    | o => o

/-- Token-list comparison of `verrevcmp`, a missing token counting as an
empty run with value 0.  Fuel equal to the total token count is always
sufficient. -/
def cmpVerTokens (a b : List (List Char × Nat)) : Ordering :=
  cmpVerTokensAux (a.length + b.length) a b

/-- dpkg's `verrevcmp` on one version part. -/
def verrevcmp (a b : List Char) : Ordering :=
  cmpVerTokens (verTokens a) (verTokens b)

/-- Split off the epoch (digits before the first `:`; 0 when absent). -/
def splitEpoch (cs : List Char) : Nat × List Char :=
  if cs.contains ':' then
    (natVal (cs.takeWhile (fun c => c ≠ ':')),
     (cs.dropWhile (fun c => c ≠ ':')).drop 1)
  else (0, cs)

/-- Split off the Debian revision (the part after the last `-`; empty when
absent). -/
def splitRev (cs : List Char) : List Char × List Char :=
  if cs.contains '-' then
    (((cs.reverse.dropWhile (fun c => c ≠ '-')).drop 1).reverse,
     (cs.reverse.takeWhile (fun c => c ≠ '-')).reverse)
  else (cs, [])

/-- Full Debian version comparison (epoch, then upstream, then revision),
the repository's native ordering. -/
def debCompare (a b : String) : Ordering :=
  match splitEpoch a.data, splitEpoch b.data with
  | (ea, ra), (eb, rb) =>
    match natCmp ea eb with
    | .eq =>
      match splitRev ra, splitRev rb with
      | (ua, va), (ub, vb) =>
        match verrevcmp ua ub with
        | .eq => verrevcmp va vb
        | o => o
    | o => o

/-! ### distutils LooseVersion

Embedding of `distutils.version.LooseVersion` comparison (Python 2):
the version string is split by the regex `(\d+ | [a-z]+ | \.)` into
components, `.` components are dropped, digit components become ints,
and the component lists are compared with Python 2 semantics (an int
always compares less than a str). -/

inductive LTok where
  | num (n : Nat)
  | str (s : List Char)
deriving DecidableEq, Repr

def isLower (c : Char) : Bool := 'a' ≤ c && c ≤ 'z'

def looseOther (c : Char) : Bool := !c.isDigit && !isLower c && c ≠ '.'

def looseTokensAux : Nat → List Char → List LTok
  | 0, _ => []
  | _, [] => []
  | fuel + 1, c :: cs =>
    if c = '.' then looseTokensAux fuel cs
    else if c.isDigit then
      .num (natVal ((c :: cs).takeWhile Char.isDigit)) ::
        looseTokensAux fuel (cs.dropWhile Char.isDigit)
    else if isLower c then
      .str ((c :: cs).takeWhile isLower) :: looseTokensAux fuel (cs.dropWhile isLower)
    else
      .str ((c :: cs).takeWhile looseOther) :: looseTokensAux fuel (cs.dropWhile looseOther)

/-- Component list of `LooseVersion`; fuel equal to the input length is
always sufficient since every step consumes at least one character. -/
def looseTokens (l : List Char) : List LTok :=
  looseTokensAux l.length l

/-- Python 2 comparison of mixed int/str components: ints compare
numerically, strs lexicographically, and any int is less than any str
(type-name ordering). -/
def cmpLTok : LTok → LTok → Ordering
  | .num a, .num b => natCmp a b
  | .str a, .str b => listCmp charCmp a b
  | .num _, .str _ => .lt
  | .str _, .num _ => .gt

/-- `LooseVersion(a).__cmp__(LooseVersion(b))` -/
def looseCompare (a b : String) : Ordering :=
  listCmp cmpLTok (looseTokens a.data) (looseTokens b.data)

/-! ### opx_rel_pkgasm: version restrictions and the package parser

`OpxRelPackageRestriction` models the class of the same name.  The
parsers work on `List Char` and faithfully replicate the regular
expressions of `OpxRelPackage.fromElement`, including their backtracking
behaviour (the version character class `[0-9][a-z0-9+-.:~]+` contains a
comma because `+-.` is a character range, and a version group must be at
least two characters long). -/

structure OpxRelPackageRestriction where
  lower_bound : Option (List Char)
  lower_bound_inclusive : Bool
  upper_bound : Option (List Char)
  upper_bound_inclusive : Bool
deriving DecidableEq, Repr

structure OpxRelPackage where
  name : List Char
  restriction : Option OpxRelPackageRestriction
deriving DecidableEq, Repr

inductive PErr where
  | valueError    -- ValueError("Can't parse version: ...")
  | unboundLocal  -- Python UnboundLocalError (a local referenced before assignment)
deriving DecidableEq, Repr

/-- Characters allowed after the leading digit of a version:
`[a-z0-9+-.:~]`, where `+-.` is the range from `+` to `.`
(i.e. `+`, `,`, `-`, `.`). -/
def verChar (c : Char) : Bool :=
  c.isDigit || isLower c || c = '+' || c = ',' || c = '-' || c = '.' || c = ':' || c = '~'

/-- A full match of `[0-9][a-z0-9+-.:~]+` (at least two characters). -/
def verFull : List Char → Bool
  | c :: c2 :: rest => c.isDigit && (c2 :: rest).all verChar
  | _ => false

/-- Characters allowed after the leading character of a package name:
`[a-zA-Z0-9+-.]` (again `+-.` is a range containing the comma). -/
def nameChar (c : Char) : Bool :=
  c.isDigit || c.isAlpha || c = '+' || c = ',' || c = '-' || c = '.'

def isPySpace (c : Char) : Bool :=
  c = ' ' || c = '\t' || c = '\n' || c = '\r' || c.toNat = 11 || c.toNat = 12

inductive RelOp where
  | lt   -- <<
  | le   -- <=
  | ne   -- !=
  | eq   -- =
  | ge   -- >=
  | gt   -- >>
deriving DecidableEq, Repr

/-- The alternation `(<<|<=|!=|=|>=|>>)`, tried in the listed order. -/
def parseRelOp : List Char → Option (RelOp × List Char)
  | '<' :: '<' :: r => some (.lt, r)
  | '<' :: '=' :: r => some (.le, r)
  | '!' :: '=' :: r => some (.ne, r)
  | '=' :: r => some (.eq, r)
  | '>' :: '=' :: r => some (.ge, r)
  | '>' :: '>' :: r => some (.gt, r)
  | _ => none

/-- The local-variable assignments of the legacy-form `if/elif` chain in
`OpxRelPackage.fromElement` (lines 234-264).  The fourth component is the
local `upper_bound_inclusive`, which the `!=` and `=` branches never
assign (both assign `lower_bound_inclusive` twice instead); `none` models
the unassigned local. -/
def legacyLocals (op : RelOp) (version : List Char) :
    Option (List Char) × Bool × Option (List Char) × Option Bool :=
  match op with
  | .lt => (none, false, some version, some false)
  | .le => (none, false, some version, some true)
  | .ne => (some version, false, some version, none)
  | .eq => (some version, true, some version, none)
  | .ge => (some version, true, none, some false)
  | .gt => (some version, true, none, some false)

/-- Building the restriction from the legacy-form locals; referencing the
never-assigned `upper_bound_inclusive` raises `UnboundLocalError`. -/
def legacyRestriction (op : RelOp) (version : List Char) :
    Except PErr OpxRelPackageRestriction :=
  match legacyLocals op version with
  | (lb, lbi, ub, some ubi) => .ok ⟨lb, lbi, ub, ubi⟩
  | (_, _, _, none) => .error .unboundLocal

/-- Parser for the legacy inline form
`\A([a-zA-Z0-9][a-zA-Z0-9+-.]+)\s*(?:\(\s*(<<|<=|!=|=|>=|>>)\s*([0-9][a-z0-9+-.:~]+)\s*\))?\s*\Z`
followed by the legacy-form restriction construction. -/
def parseInlineText (cs : List Char) : Except PErr OpxRelPackage :=
  match cs with
  | [] => .error .valueError
  | c :: rest =>
    if !(c.isDigit || c.isAlpha) then .error .valueError
    else
      match rest.takeWhile nameChar with
      | [] => .error .valueError
      | n1 :: ntail =>
        let name := c :: n1 :: ntail
        let after := (rest.dropWhile nameChar).dropWhile isPySpace
        match after with
        | [] => .ok ⟨name, none⟩
        | '(' :: r1 =>
          match parseRelOp (r1.dropWhile isPySpace) with
          | none => .error .valueError
          | some (op, r3) =>
            match r3.dropWhile isPySpace with
            | [] => .error .valueError
            | d :: vr =>
              if !d.isDigit then .error .valueError
              else
                match vr.takeWhile verChar with
                | [] => .error .valueError
                | v1 :: vtail =>
                  match (vr.dropWhile verChar).dropWhile isPySpace with
                  | ')' :: r6 =>
                    if (r6.dropWhile isPySpace).isEmpty then
                      match legacyRestriction op (d :: v1 :: vtail) with
                      | .ok restr => .ok ⟨name, some restr⟩
                      | .error e => .error e
                    else .error .valueError
                  | _ => .error .valueError
        | _ => .error .valueError

/-- Strip the first and last character of a bracketed form. -/
def splitBrackets (cs : List Char) : Option (Char × List Char × Char) :=
  match cs with
  | c :: rest =>
    match rest.reverse with
    | last :: midrev => some (c, midrev.reverse, last)
    | [] => none
  | [] => none

/-- Tail of the interval regex after the comma: `([0-9][a-z0-9+-.:~]+)?`
anchored at the closing bracket — either empty or a full version. -/
def tailOk (t : List Char) : Bool :=
  t.isEmpty || verFull t

/-- Valid split positions for the greedy first version group of
`\A([[(])([0-9][a-z0-9+-.:~]+)?,([0-9][a-z0-9+-.:~]+)?([])])\Z`:
position `k` is valid when the first `k` characters form a full version,
character `k` is the comma, and the rest is an admissible second group. -/
def splitPred (mid : List Char) (k : Nat) : Bool :=
  2 ≤ k && verFull (mid.take k) && mid.get? k = some ',' && tailOk (mid.drop (k + 1))

/-- Greedy search: the largest valid split position below `n`. -/
def findSplitAux (mid : List Char) : Nat → Option Nat
  | 0 => none
  | k + 1 => if splitPred mid k then some k else findSplitAux mid k

def findSplit (mid : List Char) : Option Nat :=
  findSplitAux mid mid.length

def optGroup (t : List Char) : Option (List Char) :=
  if t.isEmpty then none else some t

/-- The interval form `([[(])(V)?,(V)?([])])` with greedy backtracking. -/
def parseInterval (cs : List Char) : Option OpxRelPackageRestriction :=
  match splitBrackets cs with
  | some (b1, mid, b4) =>
    if (b1 = '[' || b1 = '(') && (b4 = ']' || b4 = ')') then
      match findSplit mid with
      | some k =>
        some ⟨some (mid.take k), b1 = '[', optGroup (mid.drop (k + 1)), b4 = ']'⟩
      | none =>
        match mid with
        | c :: t =>
          if c = ',' then
            if tailOk t then some ⟨none, b1 = '[', optGroup t, b4 = ']'⟩ else none
          else none
        | [] => none
    else none
  | none => none

/-- The equality special case `\A\[([0-9][a-z0-9+-.:~]+)\]\Z`. -/
def parseExactEq (cs : List Char) : Option OpxRelPackageRestriction :=
  match splitBrackets cs with
  | some (b1, mid, b4) =>
    if b1 = '[' && b4 = ']' && verFull mid then some ⟨some mid, true, some mid, true⟩
    else none
  | none => none

/-- The inequality special case `\A\(([0-9][a-z0-9+-.:~]+)\)\Z`. -/
def parseExactNe (cs : List Char) : Option OpxRelPackageRestriction :=
  match splitBrackets cs with
  | some (b1, mid, b4) =>
    if b1 = '(' && b4 = ')' && verFull mid then some ⟨some mid, false, some mid, false⟩
    else none
  | none => none

/-- Attribute-form version parsing: the three regexes are tried in the
order of `OpxRelPackage.fromElement` (interval, then `[v]`, then `(v)`). -/
def parseVersionAttr (cs : List Char) : Option OpxRelPackageRestriction :=
  match parseInterval cs with
  | some r => some r
  | none =>
    match parseExactEq cs with
    | some r => some r
    | none => parseExactNe cs

/-- Attribute-form element construction (`name` attribute plus optional
`version` attribute). -/
def fromElementAttr (name : List Char) (version : Option (List Char)) :
    Except PErr OpxRelPackage :=
  match version with
  | none => .ok ⟨name, none⟩
  | some v =>
    match parseVersionAttr v with
    | some r => .ok ⟨name, some r⟩
    | none => .error .valueError

/-- `OpxRelPackageRestriction.__str__`.  The result is `none` when Python
would raise a `TypeError` (concatenating `None` to a string in the two
special cases with absent bounds). -/
def restrictionStr (r : OpxRelPackageRestriction) : Option (List Char) :=
  if r.lower_bound_inclusive && r.lower_bound = r.upper_bound && r.upper_bound_inclusive then
    match r.lower_bound with
    | none => none
    | some v => some ('[' :: v ++ [']'])
  else if !r.lower_bound_inclusive && r.lower_bound = r.upper_bound
      && !r.upper_bound_inclusive then
    match r.lower_bound with
    | none => none
    | some v => some ('(' :: v ++ [')'])
  else
    some ((if r.lower_bound_inclusive then '[' else '(') ::
      (r.lower_bound.getD [] ++ [','] ++ r.upper_bound.getD [] ++
        [if r.upper_bound_inclusive then ']' else ')']))

/-! ### opx_rel_pkgasm: package lists and the install-time filter -/

structure OpxPackageSource where
  url : String
  distribution : String
  component : String
deriving DecidableEq, Repr

structure OpxRelPackageList where
  packages : List OpxRelPackage
  no_package_filter : Bool
deriving DecidableEq, Repr

structure OpxRelPackageSet where
  name : String
  kind : String
  default_solver : Bool
  platform : Option String
  flavor : Option String
  package_sources : List OpxPackageSource
  package_lists : List OpxRelPackageList
deriving DecidableEq, Repr

/-- The per-list comprehension of `filter_packages` (lines 915-917):
keep a package when the list disables filtering or the package name is
not among the rootfs-installed names. -/
def filterPkgList (rootfs : List (List Char)) (pl : OpxRelPackageList) :
    OpxRelPackageList :=
  ⟨pl.packages.filter (fun p => pl.no_package_filter || !rootfs.contains p.name),
   pl.no_package_filter⟩

/-- `OpxRelPackageAssembler.filter_packages`: rewrite every package list
of every package set through the comprehension above. -/
def filter_packages (rootfs : List (List Char)) (sets : List OpxRelPackageSet) :
    List OpxRelPackageSet :=
  sets.map (fun s => { s with package_lists := s.package_lists.map (filterPkgList rootfs) })

/-! ### opx_get_packages: package index model

`Pkg` models `apt_pkg.Package` identity (unique `id`, `name`); `Dep` a
single dependency alternative (`target_pkg.name`, comparison operator,
reference version — `none` operator for an unversioned dependency);
`VerInfo` an `apt_pkg.Version` (version string plus the `Depends`
OR-groups, the empty list standing for an absent `Depends` key);
`CacheEntry` a package record of the apt cache with its versions in the
index enumeration order and its installed state. -/

structure Pkg where
  id : Nat
  name : String
deriving DecidableEq, Repr

structure Dep where
  targetName : String
  comp : Option RelOp
  version : String
deriving DecidableEq, Repr

structure VerInfo where
  verStr : String
  depends : List (List Dep)
deriving DecidableEq, Repr

/-- An `apt_pkg.Version` together with its parent package, as wrapped by
`VersionWrapper`. -/
structure APTVer where
  parent : Pkg
  info : VerInfo
deriving DecidableEq, Repr

def APTVer.verStr (v : APTVer) : String := v.info.verStr

structure CacheEntry where
  pkg : Pkg
  installed : Bool   -- current_state != apt_pkg.CURSTATE_NOT_INSTALLED
  versions : List VerInfo
deriving DecidableEq, Repr

structure Cache where
  entries : List CacheEntry
deriving DecidableEq, Repr

/-- The mutable solver state of `apt_pkg.DepCache` as touched by
`_fetch_package`: the explicitly set candidate versions, and the log of
`mark_install` invocations (a package id occurs once per call). -/
structure DepState where
  candidates : List (Nat × APTVer)
  marked : List Nat
deriving DecidableEq, Repr

inductive RErr where
  | orDeps                            -- "Can't handle or-dependencies"
  | unsat (pkgName depName : String)  -- "Unable to satisfy dependency: %s %s"
  | noCandidate                       -- candidate version missing in the model
  | internalEmpty                     -- unreachable empty candidate list
  | outOfFuel                         -- fuel exhausted (would be divergence)
deriving DecidableEq, Repr

/-! ### VersionWrapper equality and hash -/

/-- `VersionWrapper.__eq__`: equality by parent-package name and version
string. -/
def vwBEq (a b : APTVer) : Bool :=
  a.parent.name == b.parent.name && a.verStr == b.verStr

/-- `VersionWrapper.__hash__` hashes the pair
`(parent_pkg.name, ver_str)`; the pair itself is the faithful model of
the hash key (equal tuples hash equally in Python). -/
def vwKey (a : APTVer) : String × String :=
  (a.parent.name, a.verStr)

def vwMember (v : APTVer) (l : List APTVer) : Bool :=
  l.any (fun w => vwBEq v w)

/-- Build a Python set from a list: keep the first occurrence of each
wrapper-equality class, in insertion order. -/
def dedupVW (l : List APTVer) : List APTVer :=
  l.foldl (fun acc x => if vwMember x acc then acc else acc ++ [x]) []

/-- Python set intersection (`&=`), determinized to keep the left
operand's order. -/
def interVW (a b : List APTVer) : List APTVer :=
  a.filter (fun x => vwMember x b)

/-! ### Dependency membership (`apt_pkg.check_dep` / `all_targets`) -/

/-- `apt_pkg.check_dep(v, relation, ref)` using the native Debian
ordering; an absent relation is always satisfied. -/
def checkDep (v : String) (op : Option RelOp) (ref : String) : Bool :=
  match op with
  | none => true
  | some o =>
    match o, debCompare v ref with
    | .lt, .lt => true
    | .le, .lt => true
    | .le, .eq => true
    | .eq, .eq => true
    | .ne, .lt => true
    | .ne, .gt => true
    | .ge, .eq => true
    | .ge, .gt => true
    | .gt, .gt => true
    | _, _ => false

/-- `apt_pkg.Dependency.all_targets()`: the versions of the target
package satisfying the dependency, in index enumeration order. -/
def allTargets (cache : Cache) (d : Dep) : List APTVer :=
  match cache.entries.find? (fun e => e.pkg.name == d.targetName) with
  | some e => (e.versions.filter (fun vi => checkDep vi.verStr d.comp d.version)).map
      (fun vi => ⟨e.pkg, vi⟩)
  | none => []

/-! ### `_fetch_package` -/

/-- The or-group compatibility rule (lines 318-326): groups with more
than one alternative are filtered against the fixed legacy-alias names
`makedev` and `debconf-2.0`; anything but exactly one surviving
alternative is an error. -/
def filterOrGroup (g : List Dep) : Except RErr Dep :=
  match (if g.length ≠ 1 then
           g.filter (fun dep => !(dep.targetName == "makedev" || dep.targetName == "debconf-2.0"))
         else g) with
  | [d] => .ok d
  | _ => .error .orDeps

/-- One step of the `pkg_versions` accumulation (lines 339-343): a new
target name is inserted, an existing one is intersected. -/
def assocMerge (pv : List (String × List APTVer)) (t : String) (s : List APTVer) :
    List (String × List APTVer) :=
  if pv.any (fun p => p.1 == t) then
    pv.map (fun p => if p.1 == t then (p.1, interVW p.2 s) else p)
  else pv ++ [(t, s)]

/-- The `pkg_versions` dictionary built by the loop over the `Depends`
OR-groups (lines 309-343), keyed by target name.  Dictionary iteration
order is determinized to insertion order.  `dep_versions` is a
`defaultdict(set)` populated only by iterating `dep.all_targets()`
(lines 329-334), so a clause whose satisfying set is empty contributes
no key and the merge loop over `dep_versions.items()` (lines 335-343)
runs zero times for it: such a clause is silently dropped instead of
being intersected as the empty set. -/
def buildPkgVersions (cache : Cache) :
    List (List Dep) → List (String × List APTVer) → Except RErr (List (String × List APTVer))
  | [], pv => .ok pv
  | g :: gs, pv =>
    match filterOrGroup g with
    | .error e => .error e
    | .ok d =>
      if (allTargets cache d).isEmpty then buildPkgVersions cache gs pv
      else buildPkgVersions cache gs (assocMerge pv d.targetName (dedupVW (allTargets cache d)))

/-- Stable insertion: the new element goes after every element it is
related to from the left, modelling Python's stable `sorted`. -/
def insSorted (r : α → α → Bool) (x : α) : List α → List α
  | [] => [x]
  | h :: t => if r h x then h :: insSorted r x t else x :: h :: t

def sortWith (r : α → α → Bool) (l : List α) : List α :=
  l.foldl (fun acc x => insSorted r x acc) []

def nameLe (a b : APTVer) : Bool :=
  listCmp charCmp a.parent.name.data b.parent.name.data ≠ .gt

/-- Ascending stable sort by parent-package name
(`sorted(versions, key=...parent_pkg.name)`). -/
def sortByName (l : List APTVer) : List APTVer :=
  sortWith nameLe l

def looseGe (a b : APTVer) : Bool :=
  looseCompare a.verStr b.verStr ≠ .lt

/-- Descending stable sort by `LooseVersion(ver_str)`
(`sorted(vx, key=lambda x: LooseVersion(x.ver_str), reverse=True)`). -/
def looseSortDesc (l : List APTVer) : List APTVer :=
  sortWith looseGe l

/-- `itertools.groupby` by parent-package name: adjacent runs of equal
keys. -/
def groupRuns : List APTVer → List (String × List APTVer)
  | [] => []
  | x :: xs =>
    match groupRuns xs with
    | (k, run) :: rest =>
      if x.parent.name = k then (k, x :: run) :: rest
      else (x.parent.name, [x]) :: (k, run) :: rest
    | [] => [(x.parent.name, [x])]

/-- Lines 355-379: sort the satisfying set by parent-package name, group
by parent package, and keep the first element of the descending
LooseVersion sort of each group (`best_v = best_v[0]`). -/
def candidateVersions (vs : List APTVer) : List APTVer :=
  (groupRuns (sortByName vs)).filterMap (fun kr => (looseSortDesc kr.2).head?)

def isInstalledCache (cache : Cache) (p : Pkg) : Bool :=
  match cache.entries.find? (fun e => e.pkg.id == p.id) with
  | some e => e.installed
  | none => false

/-- The already-installed scan (lines 381-393).  The second component is
the Python local `dep_pkg`: the parent of the candidate that triggered
the break, or of the last candidate when no check fired (`none` models
the local never being assigned, i.e. an empty candidate list). -/
def checkInstalled (cache : Cache) (bt : List Pkg) (marked : List Nat) :
    List APTVer → Option Pkg → Bool × Option Pkg
  | [], last => (false, last)
  | v :: rest, _ =>
    if (bt.map Pkg.id).contains v.parent.id then (true, some v.parent)
    else if isInstalledCache cache v.parent then (true, some v.parent)
    else if marked.contains v.parent.id then (true, some v.parent)
    else checkInstalled cache bt marked rest (some v.parent)

/-- `DepCache.get_candidate_ver` restricted to candidates the embedding
has seen being set. -/
def getCandidate (st : DepState) (p : Pkg) : Option APTVer :=
  (st.candidates.find? (fun q => q.1 == p.id)).map Prod.snd

/-- `DepCache.set_candidate_ver`. -/
def setCandidate (st : DepState) (p : Pkg) (v : APTVer) : DepState :=
  if st.candidates.any (fun q => q.1 == p.id) then
    ⟨st.candidates.map (fun q => if q.1 == p.id then (q.1, v) else q), st.marked⟩
  else ⟨st.candidates ++ [(p.id, v)], st.marked⟩

/-- `DepCache.mark_install(pkg, False, from_user)`: log the marking. -/
def markInstall (st : DepState) (p : Pkg) : DepState :=
  ⟨st.candidates, st.marked ++ [p.id]⟩

/-- The loop over `pkg_versions.items()` (lines 348-405).  `recur` is the
recursive `_fetch_package` call for the chosen dependent package.  Note
the faithful replication of the source's use of `dep_pkg` (the parent of
the *last* scanned candidate) as the package whose candidate is set and
which is recursed into, while the version set as candidate comes from
`candidate_versions[0]`. -/
def processGroups (cache : Cache) (recur : Pkg → DepState → Except RErr DepState)
    (pkgName : String) (bt : List Pkg) :
    List (String × List APTVer) → DepState → Except RErr DepState
  | [], st => .ok st
  | (name, versions) :: rest, st =>
    if versions.isEmpty then .error (.unsat pkgName name)
    else
      match checkInstalled cache bt st.marked (candidateVersions versions) none with
      | (true, _) => processGroups cache recur pkgName bt rest st
      | (false, none) => .error .internalEmpty
      | (false, some depPkg) =>
        match (candidateVersions versions).head? with
        | none => .error .internalEmpty
        | some v =>
          match recur depPkg (setCandidate st depPkg v) with
          | .error e => .error e
          | .ok st2 => processGroups cache recur pkgName bt rest st2

/-- `OpxPackages._fetch_package(pkg, backtrace)` with explicit fuel.
Reads the candidate version of `pkg`, accumulates the per-target-name
intersections of the satisfying version sets, recurses into dependent
packages that are not already installed / marked / on the backtrace, and
finally marks `pkg` itself for install. -/
def fetchPackage (cache : Cache) : Nat → Pkg → List Pkg → DepState → Except RErr DepState
  | 0, _, _, _ => .error .outOfFuel
  | fuel + 1, pkg, bt, st =>
    match getCandidate st pkg with
    | none => .error .noCandidate
    | some ver =>
      match buildPkgVersions cache ver.info.depends [] with
      | .error e => .error e
      | .ok pv =>
        match processGroups cache (fun d st2 => fetchPackage cache fuel d (pkg :: bt) st2)
            pkg.name bt pv st with
        | .error e => .error e
        | .ok st3 => .ok (markInstall st3 pkg)

/-! ### Auxiliary definitions for the verification -/

/-- Pairwise sortedness under a boolean relation. -/
def SortedB (r : α → α → Bool) (l : List α) : Prop :=
  l.Pairwise (fun a b => r a b = true)

/-- A package is backed by an entry of the cache. -/
def inCache (cache : Cache) (p : Pkg) : Prop :=
  ∃ e ∈ cache.entries, p = e.pkg

/-- Every candidate version in a `pkg_versions` accumulation is backed by
the cache. -/
def pvWF (cache : Cache) (pv : List (String × List APTVer)) : Prop :=
  ∀ pr ∈ pv, ∀ v ∈ pr.2, inCache cache v.parent

def cachePkgIds (cache : Cache) : Finset Nat :=
  (cache.entries.map (fun e => e.pkg.id)).toFinset

def btIdsF (bt : List Pkg) : Finset Nat :=
  (bt.map Pkg.id).toFinset

/-- Termination measure for `fetchPackage`: twice the number of cache
package ids not yet on the (extended) backtrace, plus one when the
current package is not itself on the backtrace. -/
def fuelMeasure (cache : Cache) (p : Pkg) (bt : List Pkg) : Nat :=
  2 * ((cachePkgIds cache) \ (insert p.id (btIdsF bt))).card +
    (if p.id ∈ btIdsF bt then 0 else 1)

/-! Concrete fixtures for the scenario parts of the claims. -/

def pkgA : Pkg := ⟨0, "a"⟩
def pkgB : Pkg := ⟨1, "b"⟩

/-- A@1.0 depends on B via `>= 1.0` and, in a second clause, `<= 2.0`. -/
def verASel : VerInfo :=
  ⟨"1.0", [[⟨"b", some .ge, "1.0"⟩], [⟨"b", some .le, "2.0"⟩]]⟩

/-- Index for the selection scenario: B available in 0.9, 1.5, 2.5. -/
def cacheSel : Cache :=
  ⟨[⟨pkgA, false, [verASel]⟩, ⟨pkgB, false, [⟨"0.9", []⟩, ⟨"1.5", []⟩, ⟨"2.5", []⟩]⟩]⟩

/-- Index for the failure scenario: B available only in 0.9 and 2.5. -/
def cacheSelFail : Cache :=
  ⟨[⟨pkgA, false, [verASel]⟩, ⟨pkgB, false, [⟨"0.9", []⟩, ⟨"2.5", []⟩]⟩]⟩

def stSel : DepState := ⟨[(0, ⟨pkgA, verASel⟩)], []⟩

/-- Cycle scenario: A depends on B, B depends on A (unversioned). -/
def verACy : VerInfo := ⟨"1.0", [[⟨"b", none, ""⟩]]⟩

def verBCy : VerInfo := ⟨"1.0", [[⟨"a", none, ""⟩]]⟩

def cacheCy : Cache := ⟨[⟨pkgA, false, [verACy]⟩, ⟨pkgB, false, [verBCy]⟩]⟩

def stCy : DepState := ⟨[(0, ⟨pkgA, verACy⟩)], []⟩

/-- A@1.0 depends on B via `>= 1.0` only. -/
def verA7 : VerInfo := ⟨"1.0", [[⟨"b", some .ge, "1.0"⟩]]⟩

/-- Frame scenario: B is reported installed; B's single version carries
arbitrary dependency clauses `dB`. -/
def cacheInst (dB : List (List Dep)) : Cache :=
  ⟨[⟨pkgA, false, [verA7]⟩, ⟨pkgB, true, [⟨"1.0", dB⟩]⟩]⟩

/-- Frame scenario variant: B is not installed but already marked for
install in the solver state. -/
def cacheUninst (dB : List (List Dep)) : Cache :=
  ⟨[⟨pkgA, false, [verA7]⟩, ⟨pkgB, false, [⟨"1.0", dB⟩]⟩]⟩

def st7 (m0 : List Nat) : DepState := ⟨[(0, ⟨pkgA, verA7⟩)], m0⟩

/-- Two versions of B whose native and LooseVersion orderings disagree:
natively `1.0~rc1 < 1.0`, but LooseVersion ranks `1.0~rc1` higher. -/
def wNative : APTVer := ⟨pkgB, ⟨"1.0", []⟩⟩

def wLoose : APTVer := ⟨pkgB, ⟨"1.0~rc1", []⟩⟩

/-- Clause-drop scenario: A@1.0 depends on B via `>= 0.5` and, in a
second clause, `>= 5.0`; B exists only at 1.0, so the second clause's
satisfying set is empty and the merge loop never sees its key. -/
def verACx : VerInfo :=
  ⟨"1.0", [[⟨"b", some .ge, "0.5"⟩], [⟨"b", some .ge, "5.0"⟩]]⟩

def cacheCx : Cache :=
  ⟨[⟨pkgA, false, [verACx]⟩, ⟨pkgB, false, [⟨"1.0", []⟩]⟩]⟩

def stCx : DepState := ⟨[(0, ⟨pkgA, verACx⟩)], []⟩

/-! ### Comparator lemmas -/

theorem natCmp_eq_iff (a b : Nat) : natCmp a b = .eq ↔ a = b := by
  unfold natCmp
  split_ifs <;> simp_all <;> omega

theorem natCmp_lt_iff (a b : Nat) : natCmp a b = .lt ↔ a < b := by
  unfold natCmp
  split_ifs <;> simp_all <;> omega

theorem natCmp_swap (a b : Nat) : natCmp a b = (natCmp b a).swap := by
  unfold natCmp
  split_ifs <;> simp_all [Ordering.swap] <;> omega

theorem charCmp_eq_of : ∀ a b : Char, charCmp a b = .eq → a = b := by
  intro a b h
  have hn : a.toNat = b.toNat := (natCmp_eq_iff _ _).mp h
  have hv : a.val = b.val := by
    rcases a with ⟨⟨av, ha⟩, pa⟩
    rcases b with ⟨⟨bv, hb⟩, pb⟩
    simp [Char.toNat, UInt32.toNat] at hn
    simp [hn]
  exact Char.eq_of_val_eq hv

theorem charCmp_refl (a : Char) : charCmp a a = .eq := by
  simp [charCmp, natCmp_eq_iff]

theorem charCmp_swap (a b : Char) : charCmp a b = (charCmp b a).swap :=
  natCmp_swap _ _

theorem charCmp_lt_trans : ∀ a b c : Char, charCmp a b = .lt → charCmp b c = .lt →
    charCmp a c = .lt := by
  intro a b c h1 h2
  simp only [charCmp, natCmp_lt_iff] at *
  omega

theorem listCmp_eq_of {f : α → α → Ordering} (hf : ∀ x y, f x y = .eq → x = y) :
    ∀ a b : List α, listCmp f a b = .eq → a = b := by
  intro a
  induction a with
  | nil => intro b h; cases b <;> simp_all [listCmp]
  | cons x xs ih =>
    intro b h
    cases b with
    | nil => simp [listCmp] at h
    | cons y ys =>
      simp only [listCmp] at h
      cases hxy : f x y <;> rw [hxy] at h
      · simp at h
      · rw [hf x y hxy, ih ys h]
      · simp at h

theorem listCmp_refl {f : α → α → Ordering} (hf : ∀ x, f x x = .eq) (a : List α) :
    listCmp f a a = .eq := by
  induction a with
  | nil => rfl
  | cons x xs ih => simp [listCmp, hf x, ih]

theorem listCmp_swap {f : α → α → Ordering} (hf : ∀ x y, f x y = (f y x).swap) :
    ∀ a b : List α, listCmp f a b = (listCmp f b a).swap := by
  intro a
  induction a with
  | nil => intro b; cases b <;> simp [listCmp, Ordering.swap]
  | cons x xs ih =>
    intro b
    cases b with
    | nil => simp [listCmp, Ordering.swap]
    | cons y ys =>
      simp only [listCmp]
      rw [hf x y]
      cases f y x <;> simp [Ordering.swap, ih ys]

theorem listCmp_lt_trans {f : α → α → Ordering} (hfe : ∀ x y, f x y = .eq → x = y)
    (hft : ∀ x y z, f x y = .lt → f y z = .lt → f x z = .lt) :
    ∀ a b c : List α, listCmp f a b = .lt → listCmp f b c = .lt → listCmp f a c = .lt := by
  intro a
  induction a with
  | nil =>
    intro b c h1 h2
    cases b with
    | nil => simp [listCmp] at h1
    | cons y ys =>
      cases c with
      | nil => simp [listCmp] at h2
      | cons z zs => rfl
  | cons x xs ih =>
    intro b c h1 h2
    cases b with
    | nil => simp [listCmp] at h1
    | cons y ys =>
      cases c with
      | nil => simp [listCmp] at h2
      | cons z zs =>
        simp only [listCmp] at h1 h2 ⊢
        cases hxy : f x y <;> rw [hxy] at h1
        · cases hyz : f y z <;> rw [hyz] at h2
          · rw [hft x y z hxy hyz]
          · have hrw := hfe y z hyz
            subst hrw
            rw [hxy]
          · simp at h2
        · have hrw := hfe x y hxy
          subst hrw
          cases hyz : f x z
          · rfl
          · rw [hyz] at h2
            exact ih ys zs h1 h2
          · rw [hyz] at h2
            simp at h2
        · simp at h1

theorem cmpLTok_eq_of : ∀ x y : LTok, cmpLTok x y = .eq → x = y := by
  intro x y h
  cases x <;> cases y <;> simp_all [cmpLTok]
  · exact (natCmp_eq_iff _ _).mp h
  · exact listCmp_eq_of charCmp_eq_of _ _ h

theorem cmpLTok_refl (x : LTok) : cmpLTok x x = .eq := by
  cases x
  · simp [cmpLTok, natCmp_eq_iff]
  · exact listCmp_refl charCmp_refl _

theorem cmpLTok_swap (x y : LTok) : cmpLTok x y = (cmpLTok y x).swap := by
  cases x <;> cases y <;> simp [cmpLTok, Ordering.swap]
  · exact natCmp_swap _ _
  · exact listCmp_swap charCmp_swap _ _

theorem cmpLTok_lt_trans : ∀ x y z : LTok, cmpLTok x y = .lt → cmpLTok y z = .lt →
    cmpLTok x z = .lt := by
  intro x y z h1 h2
  cases x <;> cases y <;> cases z <;> simp_all [cmpLTok]
  · simp only [natCmp_lt_iff] at *; omega
  · exact listCmp_lt_trans charCmp_eq_of
      charCmp_lt_trans _ _ _ h1 h2

/-! ### looseGe / nameLe order properties -/

theorem looseGe_refl (a : APTVer) : looseGe a a = true := by
  simp [looseGe, looseCompare, listCmp_refl cmpLTok_refl]

theorem looseGe_total {a b : APTVer} (h : looseGe a b = false) : looseGe b a = true := by
  simp only [looseGe, looseCompare, ne_eq, Bool.not_eq_true', decide_eq_false_iff_not,
    Decidable.not_not, decide_eq_true_eq] at h ⊢
  intro hcon
  rw [listCmp_swap cmpLTok_swap] at hcon
  rw [h] at hcon
  simp [Ordering.swap] at hcon

theorem looseGe_trans {a b c : APTVer} (h1 : looseGe a b = true) (h2 : looseGe b c = true) :
    looseGe a c = true := by
  simp only [looseGe, looseCompare, ne_eq, decide_eq_true_eq] at h1 h2 ⊢
  intro hac
  cases hab : listCmp cmpLTok (looseTokens a.verStr.data) (looseTokens b.verStr.data)
  · exact h1 hab
  · have := listCmp_eq_of cmpLTok_eq_of _ _ hab
    rw [this] at hac
    exact h2 hac
  · have hba : listCmp cmpLTok (looseTokens b.verStr.data) (looseTokens a.verStr.data) = .lt := by
      rw [listCmp_swap cmpLTok_swap, hab]; rfl
    have := listCmp_lt_trans cmpLTok_eq_of cmpLTok_lt_trans _ _ _ hba hac
    exact h2 this

theorem nameLe_refl (a : APTVer) : nameLe a a = true := by
  simp [nameLe, listCmp_refl charCmp_refl]

theorem nameLe_total {a b : APTVer} (h : nameLe a b = false) : nameLe b a = true := by
  simp only [nameLe, ne_eq, Bool.not_eq_true', decide_eq_false_iff_not,
    Decidable.not_not, decide_eq_true_eq] at h ⊢
  intro hcon
  rw [listCmp_swap charCmp_swap] at hcon
  rw [h] at hcon
  simp [Ordering.swap] at hcon

theorem nameLe_trans {a b c : APTVer} (h1 : nameLe a b = true) (h2 : nameLe b c = true) :
    nameLe a c = true := by
  simp only [nameLe, ne_eq, decide_eq_true_eq] at h1 h2 ⊢
  intro hac
  cases hab : listCmp charCmp a.parent.name.data b.parent.name.data
  · have hca : listCmp charCmp c.parent.name.data a.parent.name.data = .lt := by
      have := listCmp_swap charCmp_swap c.parent.name.data a.parent.name.data
      rw [hac] at this
      exact this
    have hcb := listCmp_lt_trans charCmp_eq_of charCmp_lt_trans _ _ _ hca hab
    apply h2
    have := listCmp_swap charCmp_swap b.parent.name.data c.parent.name.data
    rw [hcb] at this
    exact this
  · have := listCmp_eq_of charCmp_eq_of _ _ hab
    rw [this] at hac
    exact h2 hac
  · exact h1 hab

/-- Two names related both ways by `nameLe` are equal. -/
theorem nameLe_antisymm {a b : APTVer} (h1 : nameLe a b = true) (h2 : nameLe b a = true) :
    a.parent.name = b.parent.name := by
  simp only [nameLe, ne_eq, decide_eq_true_eq] at h1 h2
  cases hab : listCmp charCmp a.parent.name.data b.parent.name.data
  · apply absurd _ h2
    have := listCmp_swap charCmp_swap b.parent.name.data a.parent.name.data
    rw [hab] at this
    exact this
  · have hd := listCmp_eq_of charCmp_eq_of _ _ hab
    have ha : a.parent.name = ⟨a.parent.name.data⟩ := rfl
    have hb : b.parent.name = ⟨b.parent.name.data⟩ := rfl
    rw [ha, hb, hd]
  · exact absurd hab h1

/-! ### Stable insertion sort lemmas -/

theorem mem_insSorted {r : α → α → Bool} (x : α) :
    ∀ (l : List α) (y : α), y ∈ insSorted r x l ↔ y = x ∨ y ∈ l := by
  intro l
  induction l with
  | nil => intro y; simp [insSorted]
  | cons h t ih =>
    intro y
    cases hr : r h x <;> simp [insSorted, hr, ih, List.mem_cons] <;> tauto

theorem mem_sortWith {r : α → α → Bool} (l : List α) (y : α) :
    y ∈ sortWith r l ↔ y ∈ l := by
  suffices hgen : ∀ (l acc : List α), y ∈ l.foldl (fun acc x => insSorted r x acc) acc ↔
      y ∈ acc ∨ y ∈ l by
    have := hgen l []
    simpa [sortWith] using this
  intro l
  induction l with
  | nil => intro acc; simp
  | cons h t ih =>
    intro acc
    simp only [List.foldl_cons, ih, mem_insSorted, List.mem_cons]
    tauto

theorem pairwise_insSorted {r : α → α → Bool}
    (htot : ∀ a b, r a b = false → r b a = true)
    (htr : ∀ a b c, r a b = true → r b c = true → r a c = true)
    (x : α) : ∀ l : List α, SortedB r l → SortedB r (insSorted r x l) := by
  intro l
  induction l with
  | nil => intro _; simp [insSorted, SortedB]
  | cons h t ih =>
    intro hs
    rcases List.pairwise_cons.mp hs with ⟨hrel, ht⟩
    cases hr : r h x
    · simp only [insSorted, hr, Bool.false_eq_true, if_false]
      refine List.pairwise_cons.mpr ⟨?_, hs⟩
      intro y hy
      rcases List.mem_cons.mp hy with rfl | hyt
      · exact htot _ _ hr
      · exact htr x h y (htot _ _ hr) (hrel y hyt)
    · simp only [insSorted, hr, if_true]
      refine List.pairwise_cons.mpr ⟨?_, ih ht⟩
      intro y hy
      rcases (mem_insSorted x t y).mp hy with rfl | hyt
      · exact hr
      · exact hrel y hyt

theorem pairwise_sortWith {r : α → α → Bool}
    (htot : ∀ a b, r a b = false → r b a = true)
    (htr : ∀ a b c, r a b = true → r b c = true → r a c = true)
    (l : List α) : SortedB r (sortWith r l) := by
  suffices hgen : ∀ (l acc : List α), SortedB r acc →
      SortedB r (l.foldl (fun acc x => insSorted r x acc) acc) by
    exact hgen l [] (by simp [SortedB])
  intro l
  induction l with
  | nil => intro acc h; simpa using h
  | cons h t ih =>
    intro acc hacc
    exact ih _ (pairwise_insSorted htot htr h acc hacc)

/-! ### groupRuns lemmas -/

theorem groupRuns_cons_nil {a : APTVer} {as : List APTVer} (hg : groupRuns as = []) :
    groupRuns (a :: as) = [(a.parent.name, [a])] := by
  simp only [groupRuns, hg]

theorem groupRuns_cons_eq {a : APTVer} {as : List APTVer} {k0 : String}
    {r0 : List APTVer} {rest : List (String × List APTVer)}
    (hg : groupRuns as = (k0, r0) :: rest) (hname : a.parent.name = k0) :
    groupRuns (a :: as) = (k0, a :: r0) :: rest := by
  simp only [groupRuns, hg]
  rw [if_pos hname]

theorem groupRuns_cons_ne {a : APTVer} {as : List APTVer} {k0 : String}
    {r0 : List APTVer} {rest : List (String × List APTVer)}
    (hg : groupRuns as = (k0, r0) :: rest) (hname : ¬a.parent.name = k0) :
    groupRuns (a :: as) = (a.parent.name, [a]) :: (k0, r0) :: rest := by
  simp only [groupRuns, hg]
  rw [if_neg hname]

theorem groupRuns_nil_iff (l : List APTVer) : groupRuns l = [] ↔ l = [] := by
  cases l with
  | nil => simp [groupRuns]
  | cons x xs =>
    rcases hg : groupRuns xs with _ | ⟨⟨k0, r0⟩, rest⟩
    · rw [groupRuns_cons_nil hg]
      simp
    · by_cases hname : x.parent.name = k0
      · rw [groupRuns_cons_eq hg hname]
        simp
      · rw [groupRuns_cons_ne hg hname]
        simp

theorem groupRuns_key : ∀ (l : List APTVer) (k : String) (run : List APTVer),
    (k, run) ∈ groupRuns l → ∀ x ∈ run, x.parent.name = k := by
  intro l
  induction l with
  | nil => intro k run h; simp [groupRuns] at h
  | cons a as ih =>
    intro k run hmem x hx
    rcases hg : groupRuns as with _ | ⟨⟨k0, r0⟩, rest⟩
    · rw [groupRuns_cons_nil hg] at hmem
      simp at hmem
      rcases hmem with ⟨rfl, rfl⟩
      simp at hx
      rw [hx]
    · by_cases hname : a.parent.name = k0
      · rw [groupRuns_cons_eq hg hname] at hmem
        rcases List.mem_cons.mp hmem with heq | hrest
        · injection heq with h1 h2
          subst h1
          subst h2
          rcases List.mem_cons.mp hx with rfl | hxr0
          · exact hname
          · exact ih k r0 (by rw [hg]; exact List.mem_cons_self _ _) x hxr0
        · exact ih k run (by rw [hg]; exact List.mem_cons_of_mem _ hrest) x hx
      · rw [groupRuns_cons_ne hg hname] at hmem
        rcases List.mem_cons.mp hmem with heq | hrest
        · injection heq with h1 h2
          subst h1
          subst h2
          simp at hx
          rw [hx]
        · exact ih k run (by rw [hg]; exact hrest) x hx

theorem groupRuns_mem_sub : ∀ (l : List APTVer) (k : String) (run : List APTVer),
    (k, run) ∈ groupRuns l → ∀ x ∈ run, x ∈ l := by
  intro l
  induction l with
  | nil => intro k run h; simp [groupRuns] at h
  | cons a as ih =>
    intro k run hmem x hx
    rcases hg : groupRuns as with _ | ⟨⟨k0, r0⟩, rest⟩
    · rw [groupRuns_cons_nil hg] at hmem
      simp at hmem
      rcases hmem with ⟨rfl, rfl⟩
      simp at hx
      simp [hx]
    · by_cases hname : a.parent.name = k0
      · rw [groupRuns_cons_eq hg hname] at hmem
        rcases List.mem_cons.mp hmem with heq | hrest
        · injection heq with h1 h2
          subst h1
          subst h2
          rcases List.mem_cons.mp hx with rfl | hxr0
          · exact List.mem_cons_self _ _
          · exact List.mem_cons_of_mem _
              (ih k r0 (by rw [hg]; exact List.mem_cons_self _ _) x hxr0)
        · exact List.mem_cons_of_mem _
            (ih k run (by rw [hg]; exact List.mem_cons_of_mem _ hrest) x hx)
      · rw [groupRuns_cons_ne hg hname] at hmem
        rcases List.mem_cons.mp hmem with heq | hrest
        · injection heq with h1 h2
          subst h1
          subst h2
          simp at hx
          simp [hx]
        · exact List.mem_cons_of_mem _ (ih k run (by rw [hg]; exact hrest) x hx)

theorem groupRuns_cover : ∀ (l : List APTVer) (x : APTVer), x ∈ l →
    ∃ k run, (k, run) ∈ groupRuns l ∧ x ∈ run := by
  intro l
  induction l with
  | nil => intro x h; simp at h
  | cons a as ih =>
    intro x hx
    rcases hg : groupRuns as with _ | ⟨⟨k0, r0⟩, rest⟩
    · have : as = [] := (groupRuns_nil_iff as).mp hg
      subst this
      simp at hx
      exact ⟨a.parent.name, [a], by rw [groupRuns_cons_nil hg]; simp, by simp [hx]⟩
    · by_cases hname : a.parent.name = k0
      · rw [groupRuns_cons_eq hg hname]
        rcases List.mem_cons.mp hx with rfl | hxas
        · exact ⟨k0, x :: r0, List.mem_cons_self _ _, List.mem_cons_self _ _⟩
        · rcases ih x hxas with ⟨k, run, hkr, hxr⟩
          rw [hg] at hkr
          rcases List.mem_cons.mp hkr with heq | hrest
          · injection heq with h1 h2
            subst h1
            subst h2
            exact ⟨k, a :: run, List.mem_cons_self _ _, List.mem_cons_of_mem _ hxr⟩
          · exact ⟨k, run, List.mem_cons_of_mem _ hrest, hxr⟩
      · rw [groupRuns_cons_ne hg hname]
        rcases List.mem_cons.mp hx with rfl | hxas
        · exact ⟨x.parent.name, [x], List.mem_cons_self _ _, by simp⟩
        · rcases ih x hxas with ⟨k, run, hkr, hxr⟩
          rw [hg] at hkr
          exact ⟨k, run, List.mem_cons_of_mem _ hkr, hxr⟩

theorem groupRuns_run_ne : ∀ (l : List APTVer) (k : String) (run : List APTVer),
    (k, run) ∈ groupRuns l → run ≠ [] := by
  intro l
  induction l with
  | nil => intro k run h; simp [groupRuns] at h
  | cons a as ih =>
    intro k run hmem
    rcases hg : groupRuns as with _ | ⟨⟨k0, r0⟩, rest⟩
    · rw [groupRuns_cons_nil hg] at hmem
      simp at hmem
      simp [hmem.2]
    · by_cases hname : a.parent.name = k0
      · rw [groupRuns_cons_eq hg hname] at hmem
        rcases List.mem_cons.mp hmem with heq | hrest
        · injection heq with h1 h2
          subst h2
          simp
        · exact ih k run (by rw [hg]; exact List.mem_cons_of_mem _ hrest)
      · rw [groupRuns_cons_ne hg hname] at hmem
        rcases List.mem_cons.mp hmem with heq | hrest
        · injection heq with h1 h2
          subst h2
          simp
        · exact ih k run (by rw [hg]; exact hrest)

theorem groupRuns_head_key {b : APTVer} {as : List APTVer} {k : String}
    {run : List APTVer} {rest : List (String × List APTVer)}
    (h : groupRuns (b :: as) = (k, run) :: rest) : b.parent.name = k := by
  rcases hg : groupRuns as with _ | ⟨⟨k1, r1⟩, rest1⟩
  · rw [groupRuns_cons_nil hg] at h
    injection h with h1 h2
    injection h1 with h3 h4
  · by_cases hname : b.parent.name = k1
    · rw [groupRuns_cons_eq hg hname] at h
      injection h with h1 h2
      injection h1 with h3 h4
      rw [hname, h3]
    · rw [groupRuns_cons_ne hg hname] at h
      injection h with h1 h2
      injection h1 with h3 h4

theorem groupRuns_shape : ∀ (l : List APTVer) (k0 : String) (r0 : List APTVer)
    (rest : List (String × List APTVer)), groupRuns l = (k0, r0) :: rest →
    ∃ t, l = r0 ++ t ∧ groupRuns t = rest ∧
      ∀ hd, t.head? = some hd → hd.parent.name ≠ k0 := by
  intro l
  induction l with
  | nil => intro k0 r0 rest h; simp [groupRuns] at h
  | cons a as ih =>
    intro k0 r0 rest h
    rcases hg : groupRuns as with _ | ⟨⟨k1, r1⟩, rest1⟩
    · rw [groupRuns_cons_nil hg] at h
      injection h with h1 h2
      injection h1 with h3 h4
      refine ⟨[], ?_, ?_, ?_⟩
      · rw [← h4, (groupRuns_nil_iff as).mp hg]
        rfl
      · rw [← h2]
        rfl
      · intro hd hhd
        simp at hhd
    · by_cases hname : a.parent.name = k1
      · rw [groupRuns_cons_eq hg hname] at h
        injection h with h1 h2
        injection h1 with h3 h4
        rcases ih k1 r1 rest1 hg with ⟨t, hsplit, hgt, hhead⟩
        refine ⟨t, ?_, ?_, ?_⟩
        · rw [← h4]
          simp [hsplit]
        · rw [← h2]
          exact hgt
        · rw [← h3]
          exact hhead
      · rw [groupRuns_cons_ne hg hname] at h
        injection h with h1 h2
        injection h1 with h3 h4
        refine ⟨as, ?_, ?_, ?_⟩
        · rw [← h4]
          rfl
        · rw [← h2]
          exact hg
        · intro hd hhd
          rw [← h3]
          cases as with
          | nil => simp at hhd
          | cons b as2 =>
            simp at hhd
            subst hhd
            rw [groupRuns_head_key hg]
            intro hcon
            exact hname hcon.symm

/-- In a name-sorted list split as `r0 ++ t` where `r0` is a non-empty
run of key `k0` and `t` does not start with key `k0`, no element of `t`
has key `k0`. -/
theorem sorted_tail_no_key {r0 t : List APTVer} {k0 : String}
    (hs : SortedB nameLe (r0 ++ t)) (hne : r0 ≠ [])
    (huni : ∀ x ∈ r0, x.parent.name = k0)
    (hhead : ∀ hd, t.head? = some hd → hd.parent.name ≠ k0) :
    ∀ y ∈ t, y.parent.name ≠ k0 := by
  intro y hy hyk0
  cases t with
  | nil => simp at hy
  | cons hd t2 =>
    have hhd : hd.parent.name ≠ k0 := hhead hd rfl
    rcases r0 with _ | ⟨x0, r0'⟩
    · exact hne rfl
    rcases List.pairwise_append.mp hs with ⟨hp0, hpt, hcross⟩
    have hx0name : x0.parent.name = k0 := huni x0 (List.mem_cons_self _ _)
    have h1 : nameLe x0 hd = true :=
      hcross x0 (List.mem_cons_self _ _) hd (List.mem_cons_self _ _)
    have h2 : nameLe hd x0 = true := by
      rcases List.mem_cons.mp hy with rfl | hy2
      · exact absurd hyk0 hhd
      · have h2y : nameLe hd y = true :=
          (List.pairwise_cons.mp hpt).1 y hy2
        simp only [nameLe] at h2y ⊢
        rw [show x0.parent.name = y.parent.name from by rw [hx0name, hyk0]]
        exact h2y
    exact hhd ((nameLe_antisymm h1 h2).symm.trans hx0name)

/-- In a name-sorted list, every run of `groupRuns` is exactly the filter
of the whole list by the run's key. -/
theorem groupRuns_filter : ∀ (n : Nat) (l : List APTVer), l.length ≤ n →
    SortedB nameLe l → ∀ k run, (k, run) ∈ groupRuns l →
    run = l.filter (fun x => x.parent.name == k) := by
  intro n
  induction n with
  | zero =>
    intro l hl _ k run hmem
    have : l = [] := List.length_eq_zero.mp (Nat.le_zero.mp hl)
    subst this
    simp [groupRuns] at hmem
  | succ n ih =>
    intro l hl hs k run hmem
    rcases hgl : groupRuns l with _ | ⟨⟨k0, r0⟩, rest⟩
    · rw [hgl] at hmem
      simp at hmem
    rcases groupRuns_shape l k0 r0 rest hgl with ⟨t, hsplit, hgt, hhead⟩
    have hr0ne : r0 ≠ [] :=
      groupRuns_run_ne l k0 r0 (by rw [hgl]; exact List.mem_cons_self _ _)
    have huni : ∀ x ∈ r0, x.parent.name = k0 :=
      groupRuns_key l k0 r0 (by rw [hgl]; exact List.mem_cons_self _ _)
    have hnokey : ∀ y ∈ t, y.parent.name ≠ k0 :=
      sorted_tail_no_key (hsplit ▸ hs) hr0ne huni hhead
    rw [hgl] at hmem
    rcases List.mem_cons.mp hmem with heq | hrest
    · injection heq with h1 h2
      rw [h2, h1, hsplit, List.filter_append]
      have hfr0 : r0.filter (fun x => x.parent.name == k0) = r0 := by
        apply List.filter_eq_self.mpr
        intro x hx
        simp [huni x hx]
      have hft : t.filter (fun x => x.parent.name == k0) = [] := by
        apply List.filter_eq_nil_iff.mpr
        intro y hy
        simp [hnokey y hy]
      rw [hfr0, hft, List.append_nil]
    · have hst : SortedB nameLe t := by
        rw [hsplit] at hs
        exact (List.pairwise_append.mp hs).2.1
      have hlt : t.length ≤ n := by
        have hlen := hl
        rw [hsplit, List.length_append] at hlen
        rcases r0 with _ | ⟨u, r0'⟩
        · exact absurd rfl hr0ne
        · simp at hlen
          omega
      have hrun := ih t hlt hst k run (by rw [hgt]; exact hrest)
      have hkne : k ≠ k0 := by
        have hrne : run ≠ [] := groupRuns_run_ne t k run (by rw [hgt]; exact hrest)
        rcases hrc : run with _ | ⟨y0, run'⟩
        · exact absurd hrc hrne
        have hmt : (k, run) ∈ groupRuns t := by rw [hgt]; exact hrest
        have hy0t : y0 ∈ t := groupRuns_mem_sub t k run hmt y0 (by rw [hrc]; simp)
        have hy0k : y0.parent.name = k := groupRuns_key t k run hmt y0 (by rw [hrc]; simp)
        intro hcon
        exact hnokey y0 hy0t (by rw [hy0k, hcon])
      rw [hrun, hsplit, List.filter_append]
      have hfr0 : r0.filter (fun x => x.parent.name == k) = [] := by
        apply List.filter_eq_nil_iff.mpr
        intro x hx
        simp [huni x hx]
        intro hcon
        exact hkne hcon.symm
      rw [hfr0, List.nil_append]

/-! ### candidateVersions characterization -/

theorem nameLe_total' : ∀ a b : APTVer, nameLe a b = false → nameLe b a = true :=
  fun _ _ h => nameLe_total h

theorem nameLe_trans' : ∀ a b c : APTVer, nameLe a b = true → nameLe b c = true →
    nameLe a c = true :=
  fun _ _ _ h1 h2 => nameLe_trans h1 h2

theorem looseGe_total' : ∀ a b : APTVer, looseGe a b = false → looseGe b a = true :=
  fun _ _ h => looseGe_total h

theorem looseGe_trans' : ∀ a b c : APTVer, looseGe a b = true → looseGe b c = true →
    looseGe a c = true :=
  fun _ _ _ h1 h2 => looseGe_trans h1 h2

theorem mem_sortByName {l : List APTVer} {y : APTVer} : y ∈ sortByName l ↔ y ∈ l :=
  mem_sortWith l y

theorem mem_looseSortDesc {l : List APTVer} {y : APTVer} : y ∈ looseSortDesc l ↔ y ∈ l :=
  mem_sortWith l y

theorem sortByName_sorted (l : List APTVer) : SortedB nameLe (sortByName l) :=
  pairwise_sortWith nameLe_total' nameLe_trans' l

theorem looseSortDesc_sorted (l : List APTVer) : SortedB looseGe (looseSortDesc l) :=
  pairwise_sortWith looseGe_total' looseGe_trans' l

theorem head?_mem {l : List α} {c : α} (h : l.head? = some c) : c ∈ l := by
  cases l <;> simp_all

theorem sorted_head_ge {l : List APTVer} {c : APTVer}
    (hs : SortedB looseGe l) (h : l.head? = some c) :
    ∀ y ∈ l, looseGe c y = true := by
  cases l with
  | nil => simp at h
  | cons a t =>
    simp at h
    subst h
    intro y hy
    rcases List.mem_cons.mp hy with rfl | hyt
    · exact looseGe_refl y
    · exact (List.pairwise_cons.mp hs).1 y hyt

/-- Every selected candidate comes from the input set. -/
theorem candidateVersions_sub {vs : List APTVer} {c : APTVer}
    (h : c ∈ candidateVersions vs) : c ∈ vs := by
  rcases List.mem_filterMap.mp h with ⟨⟨k, run⟩, hkr, hhd⟩
  have h1 : c ∈ looseSortDesc run := head?_mem hhd
  have h2 : c ∈ run := mem_looseSortDesc.mp h1
  have h3 : c ∈ sortByName vs := groupRuns_mem_sub _ k run hkr c h2
  exact mem_sortByName.mp h3

/-- Every selected candidate is highest in its identity group by the
LooseVersion ordering. -/
theorem candidateVersions_max {vs : List APTVer} {c : APTVer}
    (h : c ∈ candidateVersions vs) :
    ∀ v ∈ vs, v.parent.name = c.parent.name → looseGe c v = true := by
  rcases List.mem_filterMap.mp h with ⟨⟨k, run⟩, hkr, hhd⟩
  intro v hv hvname
  have hcrun : c ∈ run := mem_looseSortDesc.mp (head?_mem hhd)
  have hck : c.parent.name = k := groupRuns_key _ k run hkr c hcrun
  have hruneq : run = (sortByName vs).filter (fun x => x.parent.name == k) :=
    groupRuns_filter (sortByName vs).length (sortByName vs) (Nat.le_refl _)
      (sortByName_sorted vs) k run hkr
  have hvrun : v ∈ run := by
    rw [hruneq]
    apply List.mem_filter.mpr
    refine ⟨mem_sortByName.mpr hv, ?_⟩
    simp [hvname, hck]
  have hvsorted : v ∈ looseSortDesc run := mem_looseSortDesc.mpr hvrun
  exact sorted_head_ge (looseSortDesc_sorted run) hhd v hvsorted

/-- Every identity occurring in the input set has a selected candidate. -/
theorem candidateVersions_cover {vs : List APTVer} {v : APTVer} (h : v ∈ vs) :
    ∃ c ∈ candidateVersions vs, c.parent.name = v.parent.name := by
  have hvsort : v ∈ sortByName vs := mem_sortByName.mpr h
  rcases groupRuns_cover _ v hvsort with ⟨k, run, hkr, hvrun⟩
  have hvk : v.parent.name = k := groupRuns_key _ k run hkr v hvrun
  have hvdesc : v ∈ looseSortDesc run := mem_looseSortDesc.mpr hvrun
  rcases hl : looseSortDesc run with _ | ⟨c, tl⟩
  · rw [hl] at hvdesc
    simp at hvdesc
  have hc1 : c ∈ looseSortDesc run := by
    rw [hl]
    exact List.mem_cons_self _ _
  have hcrun : c ∈ run := mem_looseSortDesc.mp hc1
  refine ⟨c, List.mem_filterMap.mpr ⟨(k, run), hkr, by rw [hl]; rfl⟩, ?_⟩
  rw [groupRuns_key _ k run hkr c hcrun, hvk]

/-! ### Resolver well-formedness lemmas -/

theorem buildPkgVersions_error {cache : Cache} : ∀ (gs : List (List Dep))
    (pv : List (String × List APTVer)) (e : RErr),
    buildPkgVersions cache gs pv = .error e → e = .orDeps := by
  intro gs
  induction gs with
  | nil => intro pv e h; simp [buildPkgVersions] at h
  | cons g gs2 ih =>
    intro pv e h
    simp only [buildPkgVersions] at h
    rcases hf : filterOrGroup g with e2 | d
    · rw [hf] at h
      injection h with h1
      rcases hf2 : (if g.length ≠ 1 then
          g.filter (fun dep => !(dep.targetName == "makedev" || dep.targetName == "debconf-2.0"))
        else g) with _ | ⟨d0, ds⟩
      · simp only [filterOrGroup, hf2] at hf
        injection hf with h2
        rw [← h1, ← h2]
      · rcases ds with _ | ⟨d1, ds2⟩
        · simp only [filterOrGroup, hf2] at hf
          cases hf
        · simp only [filterOrGroup, hf2] at hf
          injection hf with h2
          rw [← h1, ← h2]
    · rw [hf] at h
      have h2 : (if (allTargets cache d).isEmpty then buildPkgVersions cache gs2 pv
          else buildPkgVersions cache gs2
            (assocMerge pv d.targetName (dedupVW (allTargets cache d)))) = .error e := h
      split at h2 <;> exact ih _ e h2

theorem allTargets_inCache {cache : Cache} {d : Dep} {v : APTVer}
    (h : v ∈ allTargets cache d) : inCache cache v.parent := by
  simp only [allTargets] at h
  rcases hf : cache.entries.find? (fun e => e.pkg.name == d.targetName) with _ | e
  · rw [hf] at h
    simp at h
  · rw [hf] at h
    rcases List.mem_map.mp h with ⟨vi, hvi, hrfl⟩
    refine ⟨e, List.mem_of_find?_eq_some hf, ?_⟩
    rw [← hrfl]

theorem dedupVW_sub {l : List APTVer} {x : APTVer} (h : x ∈ dedupVW l) : x ∈ l := by
  suffices hgen : ∀ (l acc : List APTVer), x ∈ l.foldl
      (fun acc x => if vwMember x acc then acc else acc ++ [x]) acc → x ∈ acc ∨ x ∈ l by
    rcases hgen l [] h with h2 | h2
    · simp at h2
    · exact h2
  intro l
  induction l with
  | nil => intro acc h2; simp at h2; simp [h2]
  | cons a as ih =>
    intro acc h2
    simp only [List.foldl_cons] at h2
    by_cases hm : vwMember a acc
    · rw [if_pos hm] at h2
      rcases ih acc h2 with h3 | h3
      · exact Or.inl h3
      · exact Or.inr (List.mem_cons_of_mem _ h3)
    · rw [if_neg hm] at h2
      rcases ih (acc ++ [a]) h2 with h3 | h3
      · rcases List.mem_append.mp h3 with h4 | h4
        · exact Or.inl h4
        · simp at h4
          simp [h4]
      · exact Or.inr (List.mem_cons_of_mem _ h3)

theorem interVW_sub {a b : List APTVer} {x : APTVer} (h : x ∈ interVW a b) : x ∈ a :=
  (List.mem_filter.mp h).1

theorem assocMerge_wf {cache : Cache} {pv : List (String × List APTVer)} {t : String}
    {s : List APTVer} (hpv : pvWF cache pv) (hs : ∀ v ∈ s, inCache cache v.parent) :
    pvWF cache (assocMerge pv t s) := by
  intro pr hpr v hv
  simp only [assocMerge] at hpr
  by_cases hc : pv.any (fun p => p.1 == t)
  · rw [if_pos hc] at hpr
    rcases List.mem_map.mp hpr with ⟨q, hq, hrfl⟩
    by_cases hqt : q.1 == t
    · rw [if_pos hqt] at hrfl
      rw [← hrfl] at hv
      exact hpv q hq v (interVW_sub hv)
    · rw [if_neg hqt] at hrfl
      rw [← hrfl] at hv
      exact hpv q hq v hv
  · rw [if_neg hc] at hpr
    rcases List.mem_append.mp hpr with h2 | h2
    · exact hpv pr h2 v hv
    · simp at h2
      rw [h2] at hv
      exact hs v hv

theorem buildPkgVersions_wf {cache : Cache} : ∀ (gs : List (List Dep))
    (pv pv2 : List (String × List APTVer)), pvWF cache pv →
    buildPkgVersions cache gs pv = .ok pv2 → pvWF cache pv2 := by
  intro gs
  induction gs with
  | nil =>
    intro pv pv2 hpv h
    simp only [buildPkgVersions] at h
    injection h with h1
    rw [← h1]
    exact hpv
  | cons g gs2 ih =>
    intro pv pv2 hpv h
    simp only [buildPkgVersions] at h
    rcases hf : filterOrGroup g with e | d
    · rw [hf] at h
      cases h
    · rw [hf] at h
      have h2 : (if (allTargets cache d).isEmpty then buildPkgVersions cache gs2 pv
          else buildPkgVersions cache gs2
            (assocMerge pv d.targetName (dedupVW (allTargets cache d)))) = .ok pv2 := h
      split at h2
      · exact ih _ pv2 hpv h2
      · refine ih _ pv2 ?_ h2
        exact assocMerge_wf hpv (fun v hv => allTargets_inCache (dedupVW_sub hv))

theorem checkInstalled_false_aux {cache : Cache} {bt : List Pkg} {marked : List Nat} :
    ∀ (cands : List APTVer) (init : Option Pkg) (dp : Pkg),
    checkInstalled cache bt marked cands init = (false, some dp) →
    init = some dp ∨ ∃ v ∈ cands, v.parent = dp ∧
      (bt.map Pkg.id).contains v.parent.id = false := by
  intro cands
  induction cands with
  | nil =>
    intro init dp h
    simp only [checkInstalled] at h
    injection h with h1 h2
    exact Or.inl h2
  | cons v rest ih =>
    intro init dp h
    simp only [checkInstalled] at h
    by_cases h1 : (bt.map Pkg.id).contains v.parent.id
    · rw [if_pos h1] at h
      injection h with hb hs
      cases hb
    · rw [if_neg h1] at h
      by_cases h2 : isInstalledCache cache v.parent
      · rw [if_pos h2] at h
        injection h with hb hs
        cases hb
      · rw [if_neg h2] at h
        by_cases h3 : marked.contains v.parent.id
        · rw [if_pos h3] at h
          injection h with hb hs
          cases hb
        · rw [if_neg h3] at h
          rcases ih (some v.parent) dp h with h4 | ⟨w, hw, hwp, hwb⟩
          · injection h4 with h5
            refine Or.inr ⟨v, List.mem_cons_self _ _, h5, ?_⟩
            simpa using h1
          · exact Or.inr ⟨w, List.mem_cons_of_mem _ hw, hwp, hwb⟩

theorem checkInstalled_false_none {cache : Cache} {bt : List Pkg} {marked : List Nat}
    {cands : List APTVer} {dp : Pkg}
    (h : checkInstalled cache bt marked cands none = (false, some dp)) :
    ∃ v ∈ cands, v.parent = dp ∧ (bt.map Pkg.id).contains v.parent.id = false := by
  rcases checkInstalled_false_aux cands none dp h with h1 | h2
  · cases h1
  · exact h2

/-! ### Termination of the recursive fetch -/

theorem btIdsF_cons (p : Pkg) (bt : List Pkg) :
    btIdsF (p :: bt) = insert p.id (btIdsF bt) := by
  simp [btIdsF]

theorem mem_btIdsF_iff {p : Nat} {bt : List Pkg} :
    p ∈ btIdsF bt ↔ p ∈ bt.map Pkg.id := by
  simp [btIdsF]

theorem fuelMeasure_lt {cache : Cache} {d pkg : Pkg} {bt : List Pkg}
    (hd : d.id ∈ cachePkgIds cache) (hnb : d.id ∉ btIdsF bt) :
    fuelMeasure cache d (pkg :: bt) < fuelMeasure cache pkg bt := by
  unfold fuelMeasure
  rw [btIdsF_cons]
  by_cases hq : d.id = pkg.id
  · have hset : insert d.id (insert pkg.id (btIdsF bt)) = insert pkg.id (btIdsF bt) := by
      rw [hq]
      exact Finset.insert_idem _ _
    rw [hset]
    have hflag1 : d.id ∈ insert pkg.id (btIdsF bt) := by
      rw [hq]
      exact Finset.mem_insert_self _ _
    rw [if_pos hflag1]
    have hflag2 : pkg.id ∉ btIdsF bt := by
      rw [← hq]
      exact hnb
    rw [if_neg hflag2]
    omega
  · have hqmem : d.id ∈ cachePkgIds cache \ insert pkg.id (btIdsF bt) := by
      rw [Finset.mem_sdiff]
      refine ⟨hd, ?_⟩
      rw [Finset.mem_insert]
      push_neg
      exact ⟨hq, hnb⟩
    have hset : cachePkgIds cache \ insert d.id (insert pkg.id (btIdsF bt)) =
        (cachePkgIds cache \ insert pkg.id (btIdsF bt)).erase d.id := by
      ext x
      simp only [Finset.mem_sdiff, Finset.mem_insert, Finset.mem_erase]
      tauto
    rw [hset, Finset.card_erase_of_mem hqmem]
    have hpos : 0 < (cachePkgIds cache \ insert pkg.id (btIdsF bt)).card :=
      Finset.card_pos.mpr ⟨d.id, hqmem⟩
    have hb1 : (if d.id ∈ insert pkg.id (btIdsF bt) then 0 else 1) ≤ 1 := by
      split <;> omega
    have hb2 : 0 ≤ (if pkg.id ∈ btIdsF bt then 0 else 1) := by
      split <;> omega
    omega

theorem fuelMeasure_init_lt (cache : Cache) (p : Pkg) :
    fuelMeasure cache p [] < 2 * cache.entries.length + 2 := by
  unfold fuelMeasure
  have h1 : (cachePkgIds cache \ insert p.id (btIdsF [])).card ≤ cache.entries.length := by
    calc (cachePkgIds cache \ insert p.id (btIdsF [])).card
        ≤ (cachePkgIds cache).card := Finset.card_le_card (Finset.sdiff_subset)
      _ ≤ (cache.entries.map (fun e => e.pkg.id)).length := List.toFinset_card_le _
      _ = cache.entries.length := List.length_map _ _
  have h2 : (if p.id ∈ btIdsF [] then 0 else 1) ≤ 1 := by
    split <;> omega
  omega

/-- As long as the fuel exceeds the measure, `processGroups` never runs
out of fuel: the only recursive entry is through `recur`, which is only
ever invoked on a cache-backed package not on the backtrace. -/
theorem processGroups_no_fuel {cache : Cache} {recur : Pkg → DepState → Except RErr DepState}
    {pkgName : String} {bt : List Pkg}
    (hrec : ∀ d st2, inCache cache d → (bt.map Pkg.id).contains d.id = false →
      recur d st2 ≠ .error .outOfFuel) :
    ∀ (pv : List (String × List APTVer)) (st : DepState), pvWF cache pv →
    processGroups cache recur pkgName bt pv st ≠ .error .outOfFuel := by
  intro pv
  induction pv with
  | nil =>
    intro st hwf h
    simp [processGroups] at h
  | cons pr rest ih =>
    intro st hwf h
    rcases pr with ⟨name, versions⟩
    simp only [processGroups] at h
    split at h
    · simp at h
    · split at h
      next snd heq =>
        exact ih st (fun q hq => hwf q (List.mem_cons_of_mem _ hq)) h
      next heq =>
        simp at h
      next dp heq =>
        rcases checkInstalled_false_none heq with ⟨v, hv, hvp, hvb⟩
        split at h
        next hhd =>
          simp at h
        next v0 hhd =>
          have hvin : inCache cache dp := by
            rw [← hvp]
            exact hwf (name, versions) (List.mem_cons_self _ _) v (candidateVersions_sub hv)
          have hvb2 : (bt.map Pkg.id).contains dp.id = false := by
            rw [← hvp]
            exact hvb
          split at h
          next e hr =>
            injection h with h1
            rw [h1] at hr
            exact hrec dp (setCandidate st dp v0) hvin hvb2 hr
          next st2 hr =>
            exact ih st2 (fun q hq => hwf q (List.mem_cons_of_mem _ hq)) h

/-- Main fuel-sufficiency lemma: the fetch recursion never exhausts a
fuel bounded below by the measure. -/
theorem fetchPackage_no_fuel {cache : Cache} : ∀ (fuel : Nat) (pkg : Pkg) (bt : List Pkg)
    (st : DepState), fuelMeasure cache pkg bt < fuel →
    fetchPackage cache fuel pkg bt st ≠ .error .outOfFuel := by
  intro fuel
  induction fuel with
  | zero => intro pkg bt st h; omega
  | succ fuel ih =>
    intro pkg bt st hm h
    simp only [fetchPackage] at h
    split at h
    · simp at h
    next ver hg =>
      split at h
      next e hb =>
        injection h with h1
        rw [h1] at hb
        have := buildPkgVersions_error _ _ _ hb
        simp at this
      next pv hb =>
        have hwf : pvWF cache pv :=
          buildPkgVersions_wf _ _ _ (fun pr hpr => by simp at hpr) hb
        have hrec : ∀ d st2, inCache cache d → (bt.map Pkg.id).contains d.id = false →
            fetchPackage cache fuel d (pkg :: bt) st2 ≠ .error .outOfFuel := by
          intro d st2 hdc hdb
          apply ih
          have hlt : fuelMeasure cache d (pkg :: bt) < fuelMeasure cache pkg bt := by
            apply fuelMeasure_lt
            · rcases hdc with ⟨e2, he, hrfl⟩
              simp only [cachePkgIds, List.mem_toFinset]
              exact List.mem_map.mpr ⟨e2, he, by rw [hrfl]⟩
            · rw [mem_btIdsF_iff]
              simp at hdb
              simp only [List.mem_map, not_exists]
              intro x
              intro hx
              rcases hx with ⟨hx1, hx2⟩
              exact absurd hx2 (hdb x hx1)
          omega
        split at h
        next e hp =>
          injection h with h1
          rw [h1] at hp
          exact processGroups_no_fuel hrec pv st hwf hp
        next st3 hp =>
          simp at h

/-! ### Parser lemmas: greedy split and bracket structure -/

theorem findSplitAux_some {mid : List Char} : ∀ (n k : Nat), findSplitAux mid n = some k →
    splitPred mid k = true ∧ ∀ j, k < j → j < n → splitPred mid j = false := by
  intro n
  induction n with
  | zero => intro k h; simp [findSplitAux] at h
  | succ n ih =>
    intro k h
    simp only [findSplitAux] at h
    by_cases hp : splitPred mid n
    · rw [if_pos hp] at h
      injection h with h1
      subst h1
      exact ⟨hp, fun j hj1 hj2 => by omega⟩
    · rw [if_neg hp] at h
      rcases ih k h with ⟨h1, h2⟩
      refine ⟨h1, fun j hj1 hj2 => ?_⟩
      by_cases hjn : j = n
      · subst hjn
        simpa using hp
      · exact h2 j hj1 (by omega)

theorem findSplitAux_none {mid : List Char} : ∀ (n : Nat), findSplitAux mid n = none →
    ∀ j, j < n → splitPred mid j = false := by
  intro n
  induction n with
  | zero => intro h j hj; omega
  | succ n ih =>
    intro h j hj
    simp only [findSplitAux] at h
    by_cases hp : splitPred mid n
    · rw [if_pos hp] at h
      cases h
    · rw [if_neg hp] at h
      by_cases hjn : j = n
      · subst hjn
        simpa using hp
      · exact ih h j (by omega)

theorem splitBrackets_eq {s : List Char} {b1 b4 : Char} {mid : List Char}
    (h : splitBrackets s = some (b1, mid, b4)) : s = b1 :: mid ++ [b4] := by
  rcases s with _ | ⟨c, rest⟩
  · simp [splitBrackets] at h
  · simp only [splitBrackets] at h
    rcases hr : rest.reverse with _ | ⟨last, midrev⟩
    · rw [hr] at h
      cases h
    · rw [hr] at h
      injection h with h1
      injection h1 with h2 h3
      injection h3 with h4 h5
      have hrest : rest = midrev.reverse ++ [last] := by
        have := congrArg List.reverse hr
        simpa using this
      rw [h2, ← h4, ← h5, hrest]
      simp

theorem splitBrackets_of (b1 b4 : Char) (mid : List Char) :
    splitBrackets (b1 :: mid ++ [b4]) = some (b1, mid, b4) := by
  simp [splitBrackets, List.reverse_append]

theorem take_comma_drop {mid : List Char} {k : Nat} (h : mid.get? k = some ',') :
    mid = mid.take k ++ ',' :: mid.drop (k + 1) := by
  have h2 : mid.take (k + 1) = mid.take k ++ [','] := by
    rw [List.take_succ]
    rw [← List.get?_eq_getElem?, h]
    rfl
  calc mid = mid.take (k + 1) ++ mid.drop (k + 1) := (List.take_append_drop _ _).symm
    _ = mid.take k ++ [','] ++ mid.drop (k + 1) := by rw [h2]
    _ = mid.take k ++ ',' :: mid.drop (k + 1) := by simp

theorem get?_lt_length {l : List Char} {k : Nat} {c : Char} (h : l.get? k = some c) :
    k < l.length := by
  have := List.get?_eq_some.mp h
  exact this.choose

/-! ### verFull facts -/

theorem verFull_shape {l : List Char} (h : verFull l = true) :
    ∃ c c2 rest, l = c :: c2 :: rest ∧ c.isDigit = true ∧ ((c2 :: rest).all verChar) = true := by
  rcases l with _ | ⟨c, _ | ⟨c2, rest⟩⟩
  · simp [verFull] at h
  · simp [verFull] at h
  · simp only [verFull, Bool.and_eq_true] at h
    exact ⟨c, c2, rest, rfl, h.1, h.2⟩

theorem verFull_of {c : Char} {cs : List Char} (hc : c.isDigit = true)
    (hcs : cs.all verChar = true) (hne : cs ≠ []) : verFull (c :: cs) = true := by
  rcases cs with _ | ⟨c2, rest⟩
  · exact absurd rfl hne
  · simp only [verFull, Bool.and_eq_true]
    exact ⟨hc, hcs⟩

theorem verChar_of_digit {c : Char} (h : c.isDigit = true) : verChar c = true := by
  simp [verChar, h]

theorem verFull_all {l : List Char} (h : verFull l = true) : l.all verChar = true := by
  rcases verFull_shape h with ⟨c, c2, rest, rfl, hc, hall⟩
  simp only [List.all_cons, Bool.and_eq_true] at hall ⊢
  exact ⟨verChar_of_digit hc, hall⟩

theorem digit_ne_comma {c : Char} (h : c.isDigit = true) : c ≠ ',' := by
  intro hcon
  subst hcon
  simp [Char.isDigit] at h

/-! ### Greedy maximality: the key reparse lemma

If the greedy interval split of `va ++ ',' :: va` chose the middle comma
(producing equal bounds `va`), then `va` itself admits no valid split, so
the bracketed single-version form of `va` re-parses through the exact
regexes, not the interval regex. -/

theorem verFull_append_comma {va w : List Char} (hva : verFull va = true)
    (hw : w.all verChar = true) : verFull (va ++ ',' :: w) = true := by
  rcases verFull_shape hva with ⟨c, c2, rest, rfl, hc, hall⟩
  show verFull (c :: (c2 :: rest ++ ',' :: w)) = true
  apply verFull_of hc
  · rw [List.all_append]
    simp only [Bool.and_eq_true]
    refine ⟨hall, ?_⟩
    rw [List.all_cons]
    simp only [Bool.and_eq_true]
    exact ⟨by decide, hw⟩
  · simp

theorem findSplit_inner_none {va : List Char} {k : Nat}
    (hva : verFull va = true) (hlen : va.length = k)
    (hmax : ∀ j, k < j → j < (va ++ ',' :: va).length →
      splitPred (va ++ ',' :: va) j = false) :
    findSplit va = none := by
  rcases hfs : findSplit va with _ | q
  · rfl
  exfalso
  rcases findSplitAux_some va.length q hfs with ⟨hq, _⟩
  simp only [splitPred, Bool.and_eq_true, decide_eq_true_eq] at hq
  rcases hq with ⟨⟨⟨hq2, hqfull⟩, hqc⟩, hqtail⟩
  have hqlt : q < va.length := get?_lt_length hqc
  set mid := va ++ ',' :: va with hmid
  have hj := hmax (k + 1 + q) (by omega) (by simp [hmid]; omega)
  have hjtrue : splitPred mid (k + 1 + q) = true := by
    simp only [splitPred, Bool.and_eq_true, decide_eq_true_eq]
    refine ⟨⟨⟨by omega, ?_⟩, ?_⟩, ?_⟩
    · -- verFull (mid.take (k + 1 + q))
      have htake : mid.take (k + 1 + q) = va ++ ',' :: va.take q := by
        have h1 : k + 1 + q = va.length + (1 + q) := by omega
        rw [h1, hmid]
        rw [List.take_append]
        have h2 : 1 + q = q + 1 := by omega
        rw [h2]
        rfl
      rw [htake]
      apply verFull_append_comma hva
      rw [List.all_eq_true]
      intro x hx
      have hxva : x ∈ va := List.take_subset q va hx
      have hvall := verFull_all hva
      rw [List.all_eq_true] at hvall
      exact hvall x hxva
    · -- mid.get? (k + 1 + q) = some ','
      have h1 : k + 1 + q = va.length + (1 + q) := by omega
      rw [h1, hmid, List.get?_append_right (by omega)]
      have h2 : va.length + (1 + q) - va.length = 1 + q := by omega
      rw [h2]
      show (',' :: va).get? (1 + q) = some ','
      have h3 : 1 + q = q + 1 := by omega
      rw [h3]
      simpa using hqc
    · -- tailOk (mid.drop (k + 1 + q + 1))
      have h1 : k + 1 + q + 1 = va.length + (1 + (q + 1)) := by omega
      rw [h1, hmid, List.drop_append]
      show tailOk ((',' :: va).drop (1 + (q + 1))) = true
      have h2 : 1 + (q + 1) = (q + 1) + 1 := by omega
      rw [h2]
      simpa using hqtail
  rw [hj] at hjtrue
  cases hjtrue

theorem parseInterval_verFull_none {va : List Char} (hva : verFull va = true)
    (hnone : findSplit va = none) (b1 b4 : Char) :
    parseInterval (b1 :: va ++ [b4]) = none := by
  simp only [parseInterval, splitBrackets_of]
  by_cases hb : (b1 = '[' || b1 = '(') && (b4 = ']' || b4 = ')')
  · rw [if_pos hb, hnone]
    rcases verFull_shape hva with ⟨c, c2, rest, hvaeq, hc, hall⟩
    rw [hvaeq]
    show (if c = ',' then _ else none) = none
    rw [if_neg (digit_ne_comma hc)]
  · rw [if_neg hb]

theorem parseVersionAttr_eqForm {va : List Char} (hva : verFull va = true)
    (hnone : findSplit va = none) :
    parseVersionAttr ('[' :: va ++ [']']) = some ⟨some va, true, some va, true⟩ := by
  simp only [parseVersionAttr, parseInterval_verFull_none hva hnone, parseExactEq,
    splitBrackets_of]
  simp [hva]

theorem parseVersionAttr_neForm {va : List Char} (hva : verFull va = true)
    (hnone : findSplit va = none) :
    parseVersionAttr ('(' :: va ++ [')']) = some ⟨some va, false, some va, false⟩ := by
  simp only [parseVersionAttr, parseInterval_verFull_none hva hnone, parseExactEq,
    parseExactNe, splitBrackets_of]
  simp [hva]

/-! ### Parser inversion lemmas -/

theorem parseInterval_some {s : List Char} {r : OpxRelPackageRestriction}
    (h : parseInterval s = some r) :
    ∃ b1 mid b4, s = b1 :: mid ++ [b4] ∧ (b1 = '[' ∨ b1 = '(') ∧ (b4 = ']' ∨ b4 = ')') ∧
      ((∃ k, findSplit mid = some k ∧ splitPred mid k = true ∧
          r = ⟨some (mid.take k), decide (b1 = '['),
               optGroup (mid.drop (k + 1)), decide (b4 = ']')⟩) ∨
       (findSplit mid = none ∧ ∃ t, mid = ',' :: t ∧ tailOk t = true ∧
          r = ⟨none, decide (b1 = '['), optGroup t, decide (b4 = ']')⟩)) := by
  simp only [parseInterval] at h
  split at h
  next b1 mid b4 hsb =>
    split at h
    next hb =>
      simp only [Bool.and_eq_true, Bool.or_eq_true, decide_eq_true_eq] at hb
      refine ⟨b1, mid, b4, splitBrackets_eq hsb, hb.1, hb.2, ?_⟩
      split at h
      next k hfs =>
        injection h with h1
        exact Or.inl ⟨k, hfs, (findSplitAux_some mid.length k hfs).1, h1.symm⟩
      next hfs =>
        split at h
        next c t =>
          split at h
          next hc =>
            split at h
            next ht =>
              injection h with h1
              exact Or.inr ⟨hfs, t, by rw [hc], ht, h1.symm⟩
            next ht => cases h
          next hc => cases h
        next => cases h
    next hb => cases h
  next hsb => cases h

theorem parseExactEq_some {s : List Char} {r : OpxRelPackageRestriction}
    (h : parseExactEq s = some r) :
    ∃ mid, s = '[' :: mid ++ [']'] ∧ verFull mid = true ∧
      r = ⟨some mid, true, some mid, true⟩ := by
  simp only [parseExactEq] at h
  split at h
  next b1 mid b4 hsb =>
    split at h
    next hb =>
      injection h with h1
      simp only [Bool.and_eq_true, decide_eq_true_eq] at hb
      refine ⟨mid, ?_, hb.2, h1.symm⟩
      have := splitBrackets_eq hsb
      rw [this, hb.1.1, hb.1.2]
    next hb => cases h
  next hsb => cases h

theorem parseExactNe_some {s : List Char} {r : OpxRelPackageRestriction}
    (h : parseExactNe s = some r) :
    ∃ mid, s = '(' :: mid ++ [')'] ∧ verFull mid = true ∧
      r = ⟨some mid, false, some mid, false⟩ := by
  simp only [parseExactNe] at h
  split at h
  next b1 mid b4 hsb =>
    split at h
    next hb =>
      injection h with h1
      simp only [Bool.and_eq_true, decide_eq_true_eq] at hb
      refine ⟨mid, ?_, hb.2, h1.symm⟩
      have := splitBrackets_eq hsb
      rw [this, hb.1.1, hb.1.2]
    next hb => cases h
  next hsb => cases h

/-! ### Rendering evaluation lemmas -/

theorem restrictionStr_eqSpecial (va : List Char) :
    restrictionStr ⟨some va, true, some va, true⟩ = some ('[' :: va ++ [']']) := by
  simp [restrictionStr]

theorem restrictionStr_neSpecial (va : List Char) :
    restrictionStr ⟨some va, false, some va, false⟩ = some ('(' :: va ++ [')']) := by
  simp [restrictionStr]

theorem restrictionStr_nonspecial {r : OpxRelPackageRestriction}
    (h : ¬(r.lower_bound = r.upper_bound ∧
         r.lower_bound_inclusive = r.upper_bound_inclusive)) :
    restrictionStr r = some ((if r.lower_bound_inclusive then '[' else '(') ::
      (r.lower_bound.getD [] ++ [','] ++ r.upper_bound.getD [] ++
        [if r.upper_bound_inclusive then ']' else ')'])) := by
  rcases r with ⟨lb, lbi, ub, ubi⟩
  simp only at h
  have h1 : (lbi && decide (lb = ub) && ubi) = false := by
    rcases hlb : decide (lb = ub) with _ | _
    · simp
    · simp only [decide_eq_true_eq] at hlb
      cases lbi <;> cases ubi <;> simp_all
  have h2 : (!lbi && decide (lb = ub) && !ubi) = false := by
    rcases hlb : decide (lb = ub) with _ | _
    · simp
    · simp only [decide_eq_true_eq] at hlb
      cases lbi <;> cases ubi <;> simp_all
  simp only [restrictionStr]
  rw [if_neg (by simp_all), if_neg (by simp_all)]

theorem optGroup_getD (t : List Char) : (optGroup t).getD [] = t := by
  by_cases h : t.isEmpty
  · simp only [optGroup, if_pos h]
    rcases t with _ | ⟨c, t2⟩
    · rfl
    · simp at h
  · simp only [optGroup, if_neg h]
    rfl

/-- Round trip of the attribute-form version parser: any parse whose
restriction is not one of the two degenerate crash shapes renders to a
string that re-parses to the identical restriction. -/
theorem roundtrip_attr : ∀ (s : List Char) (r : OpxRelPackageRestriction),
    parseVersionAttr s = some r →
    ¬(r.lower_bound = none ∧ r.upper_bound = none ∧
      r.lower_bound_inclusive = r.upper_bound_inclusive) →
    ∃ out, restrictionStr r = some out ∧ parseVersionAttr out = some r := by
  intro s r horig hexc
  have h := horig
  simp only [parseVersionAttr] at h
  split at h
  next rI hI =>
    injection h with h1
    subst h1
    rcases parseInterval_some hI with ⟨b1, mid, b4, hseq, hb1, hb4, hcase⟩
    rcases hcase with ⟨k, hfs, hsp, hreq⟩ | ⟨hfs, t, hmid, htok, hreq⟩
    · -- interval with a present first group
      subst hreq
      simp only [splitPred, Bool.and_eq_true, decide_eq_true_eq] at hsp
      rcases hsp with ⟨⟨⟨hk2, hvafull⟩, hcomma⟩, htail⟩
      have hmideq : mid = mid.take k ++ ',' :: mid.drop (k + 1) := take_comma_drop hcomma
      by_cases hspec : (some (mid.take k) : Option (List Char)) = optGroup (mid.drop (k + 1)) ∧
          decide (b1 = '[') = decide (b4 = ']')
      · rcases hspec with ⟨hbounds, hflags⟩
        have htl : mid.drop (k + 1) = mid.take k := by
          by_cases he : (mid.drop (k + 1)).isEmpty
          · rw [show optGroup (mid.drop (k+1)) = none from by simp [optGroup, he]] at hbounds
            cases hbounds
          · rw [show optGroup (mid.drop (k+1)) = some (mid.drop (k+1)) from by
              simp [optGroup, he]] at hbounds
            injection hbounds with h2
            rw [← h2]
        have hmid2 : mid = mid.take k ++ ',' :: mid.take k := by
          rw [htl] at hmideq
          exact hmideq
        have hklen : (mid.take k).length = k := by
          have := get?_lt_length hcomma
          simp only [List.length_take]
          omega
        have hnone : findSplit (mid.take k) = none := by
          apply findSplit_inner_none hvafull hklen
          intro j hj1 hj2
          rw [← hmid2] at hj2
          have hmax := (findSplitAux_some mid.length k hfs).2
          have := hmax j hj1 hj2
          rw [hmid2] at this
          exact this
        rcases hb1 with hb1 | hb1
        · have hflagv : b4 = ']' := by
            rcases hb4 with hb4 | hb4
            · exact hb4
            · exfalso
              rw [hb1, hb4] at hflags
              simp at hflags
          subst hb1
          subst hflagv
          have hrEq : (OpxRelPackageRestriction.mk (some (mid.take k)) (decide (('[' : Char) = '['))
              (optGroup (mid.drop (k + 1))) (decide ((']' : Char) = ']'))) =
              ⟨some (mid.take k), true, some (mid.take k), true⟩ := by
            rw [← hbounds]
            simp
          rw [hrEq]
          exact ⟨_, restrictionStr_eqSpecial _, parseVersionAttr_eqForm hvafull hnone⟩
        · have hflagv : b4 = ')' := by
            rcases hb4 with hb4 | hb4
            · exfalso
              rw [hb1, hb4] at hflags
              simp at hflags
            · exact hb4
          subst hb1
          subst hflagv
          have hrEq : (OpxRelPackageRestriction.mk (some (mid.take k)) (decide (('(' : Char) = '['))
              (optGroup (mid.drop (k + 1))) (decide ((')' : Char) = ']'))) =
              ⟨some (mid.take k), false, some (mid.take k), false⟩ := by
            rw [← hbounds]
            simp
          rw [hrEq]
          exact ⟨_, restrictionStr_neSpecial _, parseVersionAttr_neForm hvafull hnone⟩
      · -- non-special: the rendered string is the input itself
        have hns : ¬((OpxRelPackageRestriction.mk (some (mid.take k)) (decide (b1 = '['))
            (optGroup (mid.drop (k + 1))) (decide (b4 = ']'))).lower_bound =
              (OpxRelPackageRestriction.mk (some (mid.take k)) (decide (b1 = '['))
            (optGroup (mid.drop (k + 1))) (decide (b4 = ']'))).upper_bound ∧
            (OpxRelPackageRestriction.mk (some (mid.take k)) (decide (b1 = '['))
            (optGroup (mid.drop (k + 1))) (decide (b4 = ']'))).lower_bound_inclusive =
              (OpxRelPackageRestriction.mk (some (mid.take k)) (decide (b1 = '['))
            (optGroup (mid.drop (k + 1))) (decide (b4 = ']'))).upper_bound_inclusive) := by
          simpa using hspec
        refine ⟨_, restrictionStr_nonspecial hns, ?_⟩
        have hout : ((if (OpxRelPackageRestriction.mk (some (mid.take k)) (decide (b1 = '['))
            (optGroup (mid.drop (k + 1))) (decide (b4 = ']'))).lower_bound_inclusive
              then '[' else '(') ::
            ((OpxRelPackageRestriction.mk (some (mid.take k)) (decide (b1 = '['))
            (optGroup (mid.drop (k + 1))) (decide (b4 = ']'))).lower_bound.getD [] ++ [','] ++
              (OpxRelPackageRestriction.mk (some (mid.take k)) (decide (b1 = '['))
            (optGroup (mid.drop (k + 1))) (decide (b4 = ']'))).upper_bound.getD [] ++
              [if (OpxRelPackageRestriction.mk (some (mid.take k)) (decide (b1 = '['))
            (optGroup (mid.drop (k + 1))) (decide (b4 = ']'))).upper_bound_inclusive
              then ']' else ')'])) = s := by
          simp only [optGroup_getD, Option.getD_some]
          have hbkt1 : (if decide (b1 = '[') = true then '[' else '(') = b1 := by
            rcases hb1 with hb1 | hb1 <;> rw [hb1] <;> simp
          have hbkt4 : (if decide (b4 = ']') = true then ']' else ')') = b4 := by
            rcases hb4 with hb4 | hb4 <;> rw [hb4] <;> simp
          rw [hbkt1, hbkt4, hseq]
          congr 1
          conv_rhs => rw [hmideq]
          simp
        rw [hout]
        exact horig
    · -- interval with an absent first group
      subst hreq
      have hns : ¬((OpxRelPackageRestriction.mk none (decide (b1 = '['))
          (optGroup t) (decide (b4 = ']'))).lower_bound =
            (OpxRelPackageRestriction.mk none (decide (b1 = '['))
          (optGroup t) (decide (b4 = ']'))).upper_bound ∧
          (OpxRelPackageRestriction.mk none (decide (b1 = '['))
          (optGroup t) (decide (b4 = ']'))).lower_bound_inclusive =
            (OpxRelPackageRestriction.mk none (decide (b1 = '['))
          (optGroup t) (decide (b4 = ']'))).upper_bound_inclusive) := by
        intro hcon
        rcases hcon with ⟨hcon1, hcon2⟩
        exact hexc ⟨rfl, hcon1.symm, hcon2⟩
      refine ⟨_, restrictionStr_nonspecial hns, ?_⟩
      have hout : ((if (OpxRelPackageRestriction.mk none (decide (b1 = '['))
          (optGroup t) (decide (b4 = ']'))).lower_bound_inclusive then '[' else '(') ::
          ((OpxRelPackageRestriction.mk none (decide (b1 = '['))
          (optGroup t) (decide (b4 = ']'))).lower_bound.getD [] ++ [','] ++
            (OpxRelPackageRestriction.mk none (decide (b1 = '['))
          (optGroup t) (decide (b4 = ']'))).upper_bound.getD [] ++
            [if (OpxRelPackageRestriction.mk none (decide (b1 = '['))
          (optGroup t) (decide (b4 = ']'))).upper_bound_inclusive
            then ']' else ')'])) = s := by
        simp only [optGroup_getD, Option.getD_none]
        have hbkt1 : (if decide (b1 = '[') = true then '[' else '(') = b1 := by
          rcases hb1 with hb1 | hb1 <;> rw [hb1] <;> simp
        have hbkt4 : (if decide (b4 = ']') = true then ']' else ')') = b4 := by
          rcases hb4 with hb4 | hb4 <;> rw [hb4] <;> simp
        rw [hbkt1, hbkt4, hseq, hmid]
        simp
      rw [hout]
      exact horig
  next hI =>
    split at h
    next rE hE =>
      injection h with h1
      subst h1
      rcases parseExactEq_some hE with ⟨mid, hseq, hvf, hreq⟩
      subst hreq
      refine ⟨_, restrictionStr_eqSpecial mid, ?_⟩
      rw [← hseq]
      exact horig
    next hE =>
      rcases parseExactNe_some h with ⟨mid, hseq, hvf, hreq⟩
      subst hreq
      refine ⟨_, restrictionStr_neSpecial mid, ?_⟩
      rw [← hseq]
      exact horig

/-! ### Lemmas on absent bounds (parser invariant) -/

theorem optGroup_eq_none {t : List Char} (h : optGroup t = none) : t = [] := by
  by_cases he : t.isEmpty
  · rcases t with _ | ⟨c, t2⟩
    · rfl
    · simp at he
  · simp [optGroup, he] at h

/-- The only attribute-form inputs parsing to a restriction with both
bounds absent are the four empty intervals. -/
theorem parseVersionAttr_both_none {s : List Char} {r : OpxRelPackageRestriction}
    (h : parseVersionAttr s = some r) (hlb : r.lower_bound = none)
    (hub : r.upper_bound = none) :
    s = ['[', ',', ']'] ∨ s = ['[', ',', ')'] ∨ s = ['(', ',', ']'] ∨ s = ['(', ',', ')'] := by
  simp only [parseVersionAttr] at h
  split at h
  next rI hI =>
    injection h with h1
    subst h1
    rcases parseInterval_some hI with ⟨b1, mid, b4, hseq, hb1, hb4, hcase⟩
    rcases hcase with ⟨k, hfs, hsp, hreq⟩ | ⟨hfs, t, hmid, htok, hreq⟩
    · rw [hreq] at hlb
      cases hlb
    · rw [hreq] at hub
      have ht : t = [] := optGroup_eq_none hub
      subst ht
      rw [hmid] at hseq
      rcases hb1 with hb1 | hb1 <;> rcases hb4 with hb4 | hb4 <;>
        rw [hb1, hb4] at hseq <;> simp [hseq]
  next hI =>
    split at h
    next rE hE =>
      injection h with h1
      subst h1
      rcases parseExactEq_some hE with ⟨mid, hseq, hvf, hreq⟩
      rw [hreq] at hlb
      cases hlb
    next hE =>
      rcases parseExactNe_some h with ⟨mid, hseq, hvf, hreq⟩
      rw [hreq] at hlb
      cases hlb

/-- The legacy-form restriction constructor, when it does not crash,
always sets at least one bound. -/
theorem legacyRestriction_bound {op : RelOp} {v : List Char} {r : OpxRelPackageRestriction}
    (h : legacyRestriction op v = .ok r) :
    r.lower_bound ≠ none ∨ r.upper_bound ≠ none := by
  cases op <;> simp only [legacyRestriction, legacyLocals] at h
  · injection h with h1
    rw [← h1]
    exact Or.inr (by simp)
  · injection h with h1
    rw [← h1]
    exact Or.inr (by simp)
  · cases h
  · cases h
  · injection h with h1
    rw [← h1]
    exact Or.inl (by simp)
  · injection h with h1
    rw [← h1]
    exact Or.inl (by simp)

/-- Any restriction produced by the inline legacy parser comes from the
legacy-form constructor. -/
theorem parseInlineText_restriction {cs : List Char} {n : List Char}
    {r : OpxRelPackageRestriction} (h : parseInlineText cs = .ok ⟨n, some r⟩) :
    ∃ op v, legacyRestriction op v = .ok r := by
  simp only [parseInlineText] at h
  split at h
  · cases h
  next c rest =>
    split at h
    · cases h
    · split at h
      · cases h
      next n1 ntail hnm =>
        split at h
        · injection h with h1
          injection h1 with h2 h3
          cases h3
        next r1 =>
          split at h
          · cases h
          next op r3 hop =>
            split at h
            · cases h
            next d vr =>
              split at h
              · cases h
              · split at h
                · cases h
                next v1 vtail hvr =>
                  split at h
                  next r6 =>
                    split at h
                    next hemp =>
                      split at h
                      next restr hleg =>
                        injection h with h1
                        injection h1 with h2 h3
                        injection h3 with h4
                        exact ⟨op, _, by rw [hleg, h4]⟩
                      next e hleg => cases h
                    next hemp => cases h
                  · cases h
        · cases h

/-! ### Small helpers for the claim theorems -/

theorem filterOrGroup_single (d : Dep) : filterOrGroup [d] = .ok d := by
  simp [filterOrGroup]

theorem vwBEq_eq_key (x y : APTVer) : vwBEq x y = decide (vwKey x = vwKey y) := by
  by_cases h1 : x.parent.name = y.parent.name <;> by_cases h2 : x.verStr = y.verStr <;>
    simp [vwBEq, vwKey, h1, h2]

theorem vwMember_congr {a w : APTVer} (h : vwKey a = vwKey w) (l : List APTVer) :
    vwMember a l = vwMember w l := by
  simp only [vwMember]
  congr 1
  funext y
  rw [vwBEq_eq_key, vwBEq_eq_key, h]

theorem vwMember_inter_true {a : APTVer} {l1 l2 : List APTVer}
    (h1 : vwMember a l1 = true) (h2 : vwMember a l2 = true) :
    vwMember a (interVW l1 l2) = true := by
  simp only [vwMember, List.any_eq_true] at h1 ⊢
  rcases h1 with ⟨w, hw, hbeq⟩
  refine ⟨w, ?_, hbeq⟩
  simp only [interVW, List.mem_filter]
  refine ⟨hw, ?_⟩
  have hkey : vwKey a = vwKey w := of_decide_eq_true (by rw [← vwBEq_eq_key]; exact hbeq)
  rw [← vwMember_congr hkey l2]
  exact h2

theorem vwMember_inter_elim {a : APTVer} {l1 l2 : List APTVer}
    (h : vwMember a (interVW l1 l2) = true) :
    vwMember a l1 = true ∧ vwMember a l2 = true := by
  simp only [vwMember, List.any_eq_true] at h
  rcases h with ⟨w, hw, hbeq⟩
  simp only [interVW, List.mem_filter] at hw
  rcases hw with ⟨hw1, hw2⟩
  have hkey : vwKey a = vwKey w := of_decide_eq_true (by rw [← vwBEq_eq_key]; exact hbeq)
  constructor
  · simp only [vwMember, List.any_eq_true]
    exact ⟨w, hw1, hbeq⟩
  · rw [vwMember_congr hkey l2]
    exact hw2

theorem vwMember_inter (a : APTVer) (l1 l2 : List APTVer) :
    vwMember a (interVW l1 l2) = (vwMember a l1 && vwMember a l2) := by
  rcases hL : vwMember a (interVW l1 l2)
  · rcases h1 : vwMember a l1
    · rfl
    · rcases h2 : vwMember a l2
      · rfl
      · rw [vwMember_inter_true h1 h2] at hL
        cases hL
  · rcases vwMember_inter_elim hL with ⟨h1, h2⟩
    rw [h1, h2]
    rfl

/-! ### The claims -/

/-- Claim C1 counterexample: with A depending on B via >= 0.5 and, in a
second clause, >= 5.0, and B available only at 1.0, the second clause's
satisfying set is empty, so the intersection of the two clauses'
satisfying sets is empty; yet the accumulator drops the empty clause and
keeps B@1.0, and resolution succeeds, installing B@1.0, instead of
selecting from that (empty) intersection or failing. -/
theorem claim_c1_counterexample :
    allTargets cacheCx ⟨"b", some .ge, "5.0"⟩ = [] ∧
    interVW (dedupVW (allTargets cacheCx ⟨"b", some .ge, "0.5"⟩))
      (dedupVW (allTargets cacheCx ⟨"b", some .ge, "5.0"⟩)) = [] ∧
    buildPkgVersions cacheCx [[⟨"b", some .ge, "0.5"⟩], [⟨"b", some .ge, "5.0"⟩]] [] =
      .ok [("b", [⟨pkgB, ⟨"1.0", []⟩⟩])] ∧
    fetchPackage cacheCx 6 pkgA [] stCx =
      .ok ⟨[(0, ⟨pkgA, verACx⟩), (1, ⟨pkgB, ⟨"1.0", []⟩⟩)], [1, 0]⟩ :=
  ⟨rfl, rfl, rfl, rfl⟩

/-- C1 (amended): the resolver accumulates, per target name, the
intersection of the satisfying version sets across clauses whose
satisfying set is non-empty, and selects a version from that
accumulation; a clause with an empty satisfying set contributes no key
to the dependency dictionary and is silently dropped rather than
intersected.  With B constrained by >= 1.0 and <= 2.0 over available
versions 0.9, 1.5 and 2.5 both sets are non-empty, their intersection
is accumulated and candidate 1.5 is set for B; over only 0.9 and 2.5
both sets are still non-empty but the intersection is empty, and
resolution fails with the unsatisfiable-transitive-dependency error. -/
theorem claim_c1 :
    (∀ (cache : Cache) (d1 d2 : Dep), d1.targetName = d2.targetName →
      allTargets cache d1 ≠ [] → allTargets cache d2 ≠ [] →
      buildPkgVersions cache [[d1], [d2]] [] =
        .ok [(d1.targetName,
          interVW (dedupVW (allTargets cache d1)) (dedupVW (allTargets cache d2)))]) ∧
    (∀ (cache : Cache) (d1 d2 : Dep), allTargets cache d2 = [] →
      buildPkgVersions cache [[d1], [d2]] [] = buildPkgVersions cache [[d1]] []) ∧
    fetchPackage cacheSel 6 pkgA [] stSel =
      .ok ⟨[(0, ⟨pkgA, verASel⟩), (1, ⟨pkgB, ⟨"1.5", []⟩⟩)], [1, 0]⟩ ∧
    fetchPackage cacheSelFail 6 pkgA [] stSel = .error (.unsat "a" "b") := by
  refine ⟨?_, ?_, rfl, rfl⟩
  · intro cache d1 d2 hT h1 h2
    have e1 : (allTargets cache d1).isEmpty = false := by
      rcases hx : allTargets cache d1 with _ | ⟨v, vs⟩
      · exact absurd hx h1
      · rfl
    have e2 : (allTargets cache d2).isEmpty = false := by
      rcases hx : allTargets cache d2 with _ | ⟨v, vs⟩
      · exact absurd hx h2
      · rfl
    simp [buildPkgVersions, filterOrGroup_single, assocMerge, hT, e1, e2]
  · intro cache d1 d2 h2
    have e2 : (allTargets cache d2).isEmpty = true := by rw [h2]; rfl
    simp [buildPkgVersions, filterOrGroup_single, e2]

/-- Claim C1 instantiated on the selection index and the clause-drop
index. -/
theorem claim_c1_witness :
    buildPkgVersions cacheSel [[⟨"b", some .ge, "1.0"⟩], [⟨"b", some .le, "2.0"⟩]] [] =
      .ok [("b", interVW (dedupVW (allTargets cacheSel ⟨"b", some .ge, "1.0"⟩))
        (dedupVW (allTargets cacheSel ⟨"b", some .le, "2.0"⟩)))] ∧
    buildPkgVersions cacheCx [[⟨"b", some .ge, "0.5"⟩], [⟨"b", some .ge, "5.0"⟩]] [] =
      buildPkgVersions cacheCx [[⟨"b", some .ge, "0.5"⟩]] [] :=
  ⟨claim_c1.1 cacheSel ⟨"b", some .ge, "1.0"⟩ ⟨"b", some .le, "2.0"⟩ rfl
      (by decide) (by decide),
   claim_c1.2.1 cacheCx ⟨"b", some .ge, "0.5"⟩ ⟨"b", some .ge, "5.0"⟩ (by decide)⟩

/-- C2: the resolver terminates on every finite index: with fuel
2*|entries|+2 it never reports fuel exhaustion, because a dependency
already on the backtrace is treated as satisfied; in the two-package
cycle (A depends on B, B depends on A) resolving A succeeds and marks
both A and B for install exactly once. -/
theorem claim_c2 :
    (∀ (cache : Cache) (pkg : Pkg) (st : DepState),
      fetchPackage cache (2 * cache.entries.length + 2) pkg [] st ≠ .error .outOfFuel) ∧
    fetchPackage cacheCy 6 pkgA [] stCy =
      .ok ⟨[(0, ⟨pkgA, verACy⟩), (1, ⟨pkgB, verBCy⟩)], [pkgB.id, pkgA.id]⟩ ∧
    ((fetchPackage cacheCy 6 pkgA [] stCy).toOption.map
      (fun st2 => (st2.marked.count pkgA.id, st2.marked.count pkgB.id))) = some (1, 1) := by
  refine ⟨?_, rfl, rfl⟩
  intro cache pkg st
  exact fetchPackage_no_fuel _ pkg [] st (fuelMeasure_init_lt cache pkg)

/-- Claim C2 instantiated on the cyclic index. -/
theorem claim_c2_witness :
    fetchPackage cacheCy (2 * cacheCy.entries.length + 2) pkgA [] stCy ≠
      .error .outOfFuel :=
  claim_c2.1 cacheCy pkgA stCy

/-- C3: the claim says the inline legacy forms name (= v) and
name (!= v) produce a both-bounds restriction distinguished only by the
inclusivity flags.  In the code both branches assign
lower_bound_inclusive twice and never assign upper_bound_inclusive, so
building the restriction references an unassigned local and both forms
raise UnboundLocalError instead of returning a restriction. -/
theorem claim_c3 :
    parseInlineText "foo (= 1.0)".data = .error .unboundLocal ∧
    parseInlineText "foo (!= 1.0)".data = .error .unboundLocal ∧
    legacyLocals .eq "1.0".data = (some "1.0".data, true, some "1.0".data, none) ∧
    legacyLocals .ne "1.0".data = (some "1.0".data, false, some "1.0".data, none) :=
  ⟨rfl, rfl, rfl, rfl⟩

/-- Claim C4 counterexample: with two versions of the same package,
natively 1.0~rc1 precedes 1.0, yet the candidate selection picks
1.0~rc1, following the LooseVersion ordering where it ranks higher; so
the highest version is not selected by the repository's native
ordering. -/
theorem claim_c4_counterexample :
    wNative.parent = wLoose.parent ∧
    debCompare wLoose.verStr wNative.verStr = .lt ∧
    looseCompare wLoose.verStr wNative.verStr = .gt ∧
    candidateVersions [wNative, wLoose] = [wLoose] :=
  ⟨rfl, rfl, rfl, rfl⟩

/-- C4 (amended): candidates are partitioned by owning package identity
and within each identity the highest version is selected by the
distutils LooseVersion ordering of the version strings, not the
repository's native ordering: every selected candidate comes from the
input set and dominates every same-identity input under the
LooseVersion ordering, and every identity present in the input yields a
selected candidate. -/
theorem claim_c4 :
    (∀ (vs : List APTVer) (c : APTVer), c ∈ candidateVersions vs →
      c ∈ vs ∧ ∀ v ∈ vs, v.parent.name = c.parent.name → looseGe c v = true) ∧
    (∀ (vs : List APTVer) (v : APTVer), v ∈ vs →
      ∃ c ∈ candidateVersions vs, c.parent.name = v.parent.name) :=
  ⟨fun _ _ h => ⟨candidateVersions_sub h, candidateVersions_max h⟩,
   fun _ _ h => candidateVersions_cover h⟩

/-- Claim C4 instantiated on the two disagreeing versions. -/
theorem claim_c4_witness :
    wLoose ∈ ([wNative, wLoose] : List APTVer) ∧ looseGe wLoose wNative = true :=
  ⟨(claim_c4.1 [wNative, wLoose] wLoose (by decide)).1,
   (claim_c4.1 [wNative, wLoose] wLoose (by decide)).2 wNative (by decide) (by decide)⟩

/-- Claim C5 counterexample: the attribute input [,] parses to the
restriction with both bounds absent and both flags set, whose rendering
takes the equality special case and crashes concatenating None
(modelled as a none result), so this parser output does not round
trip. -/
theorem claim_c5_counterexample :
    parseVersionAttr "[,]".data = some ⟨none, true, none, true⟩ ∧
    restrictionStr ⟨none, true, none, true⟩ = none :=
  ⟨rfl, rfl⟩

/-- C5 (amended): for every restriction produced by the attribute-form
parser, except the degenerate parses with both bounds absent and equal
inclusivity flags (inputs [,] and (,), where rendering raises a
TypeError), rendering succeeds and re-parsing the rendered text yields
the identical restriction, preserving bounds, inclusivity flags and the
equality/inequality special-case distinction. -/
theorem claim_c5 : ∀ (s : List Char) (r : OpxRelPackageRestriction),
    parseVersionAttr s = some r →
    ¬(r.lower_bound = none ∧ r.upper_bound = none ∧
      r.lower_bound_inclusive = r.upper_bound_inclusive) →
    ∃ out, restrictionStr r = some out ∧ parseVersionAttr out = some r :=
  roundtrip_attr

/-- Claim C5 instantiated on the interval input. -/
theorem claim_c5_witness :
    ∃ out, restrictionStr ⟨some "1.0".data, true, some "2.0".data, true⟩ = some out ∧
      parseVersionAttr out = some ⟨some "1.0".data, true, some "2.0".data, true⟩ :=
  claim_c5 "[1.0,2.0]".data ⟨some "1.0".data, true, some "2.0".data, true⟩ rfl (by decide)

/-- C6: an OR-group with more than one alternative is filtered against
the fixed legacy-alias names makedev and debconf-2.0; when more than
one alternative survives the filter the group is rejected with the
or-dependency error rather than choosing among the alternatives, and
when exactly one survives it becomes the group's dependency. -/
theorem claim_c6 : ∀ (g : List Dep), 1 < g.length →
    (1 < (g.filter (fun dep =>
        !(dep.targetName == "makedev" || dep.targetName == "debconf-2.0"))).length →
      filterOrGroup g = .error .orDeps) ∧
    (∀ d, g.filter (fun dep =>
        !(dep.targetName == "makedev" || dep.targetName == "debconf-2.0")) = [d] →
      filterOrGroup g = .ok d) := by
  intro g hg
  have hne : g.length ≠ 1 := by omega
  constructor
  · intro hf
    simp only [filterOrGroup, ne_eq, hne, not_false_eq_true, if_true]
    rcases hfl : g.filter (fun dep =>
        !(dep.targetName == "makedev" || dep.targetName == "debconf-2.0")) with _ | ⟨d0, ds⟩
    · rw [hfl]
    · rcases ds with _ | ⟨d1, ds2⟩
      · rw [hfl] at hf
        simp at hf
      · rw [hfl]
  · intro d hd
    simp only [filterOrGroup, ne_eq, hne, not_false_eq_true, if_true, hd]

/-- Claim C6 instantiated on a two-alternative group with and without a
legacy alias. -/
theorem claim_c6_witness :
    filterOrGroup [⟨"x", none, ""⟩, ⟨"y", none, ""⟩] = .error .orDeps ∧
    filterOrGroup [⟨"x", none, ""⟩, ⟨"makedev", none, ""⟩] = .ok ⟨"x", none, ""⟩ :=
  ⟨(claim_c6 [⟨"x", none, ""⟩, ⟨"y", none, ""⟩] (by decide)).1 (by decide),
   (claim_c6 [⟨"x", none, ""⟩, ⟨"makedev", none, ""⟩] (by decide)).2
     ⟨"x", none, ""⟩ (by decide)⟩

/-- C7: when package A depends on a package B that the index reports
installed, or that is already marked for install, resolving A leaves
the candidate map unchanged, appends only A's own id to the mark log,
and never reads B's dependency clauses: the outcome is literally the
same term for every choice dB of B's Depends data. -/
theorem claim_c7 :
    (∀ (dB : List (List Dep)) (m0 : List Nat),
      fetchPackage (cacheInst dB) 6 pkgA [] (st7 m0) =
        .ok ⟨(st7 m0).candidates, m0 ++ [pkgA.id]⟩) ∧
    (∀ (dB : List (List Dep)),
      fetchPackage (cacheUninst dB) 6 pkgA [] (st7 [pkgB.id]) =
        .ok ⟨(st7 [pkgB.id]).candidates, [pkgB.id] ++ [pkgA.id]⟩) :=
  ⟨fun _ _ => rfl, fun _ => rfl⟩

/-- Claim C7 instantiated on a concrete Depends choice for B. -/
theorem claim_c7_witness :
    fetchPackage (cacheInst [[⟨"zzz", none, ""⟩]]) 6 pkgA [] (st7 [7]) =
      .ok ⟨(st7 [7]).candidates, [7] ++ [pkgA.id]⟩ :=
  claim_c7.1 [[⟨"zzz", none, ""⟩]] [7]

/-- Claim C8 counterexample: the attribute-form element with version
text [,] parses successfully to a restriction whose lower and upper
bounds are both absent, violating the at-least-one-bound invariant. -/
theorem claim_c8_counterexample :
    fromElementAttr "pkg".data (some "[,]".data) =
      .ok ⟨"pkg".data, some ⟨none, true, none, true⟩⟩ := rfl

/-- C8 (amended): every restriction produced by the inline legacy
parser has at least one bound set, and an attribute-form parse yields a
restriction with both bounds absent exactly for the four empty-interval
inputs [,], [,), (,] and (,). -/
theorem claim_c8 :
    (∀ (cs n : List Char) (r : OpxRelPackageRestriction),
      parseInlineText cs = .ok ⟨n, some r⟩ →
      r.lower_bound ≠ none ∨ r.upper_bound ≠ none) ∧
    (∀ (s : List Char) (r : OpxRelPackageRestriction),
      parseVersionAttr s = some r → r.lower_bound = none → r.upper_bound = none →
      s = ['[', ',', ']'] ∨ s = ['[', ',', ')'] ∨
        s = ['(', ',', ']'] ∨ s = ['(', ',', ')']) := by
  constructor
  · intro cs n r h
    rcases parseInlineText_restriction h with ⟨op, v, hleg⟩
    exact legacyRestriction_bound hleg
  · intro s r h hlb hub
    exact parseVersionAttr_both_none h hlb hub

/-- Claim C8 instantiated on an inline parse and an empty interval. -/
theorem claim_c8_witness :
    ((⟨some "1.0".data, true, none, false⟩ : OpxRelPackageRestriction).lower_bound ≠ none ∨
      (⟨some "1.0".data, true, none, false⟩ : OpxRelPackageRestriction).upper_bound ≠ none) ∧
    ("[,)".data = ['[', ',', ']'] ∨ "[,)".data = ['[', ',', ')'] ∨
      "[,)".data = ['(', ',', ']'] ∨ "[,)".data = ['(', ',', ')']) :=
  ⟨claim_c8.1 "foo (>= 1.0)".data "foo".data ⟨some "1.0".data, true, none, false⟩ rfl,
   claim_c8.2 "[,)".data ⟨none, true, none, false⟩ rfl rfl rfl⟩

/-- C9: the install-time filter keeps a member of a package list
whenever the list's no-filter flag is set even if its name is among the
rootfs-installed names, drops it when the flag is clear and its name is
installed, and always keeps members whose names are not installed;
filter_packages applies exactly this per-list filter to every package
list of every set. -/
theorem claim_c9 :
    (∀ (rootfs : List (List Char)) (pl : OpxRelPackageList) (p : OpxRelPackage),
      p ∈ pl.packages →
      (pl.no_package_filter = true → p ∈ (filterPkgList rootfs pl).packages) ∧
      (pl.no_package_filter = false → p.name ∈ rootfs →
        p ∉ (filterPkgList rootfs pl).packages) ∧
      (p.name ∉ rootfs → p ∈ (filterPkgList rootfs pl).packages)) ∧
    (∀ (rootfs : List (List Char)) (sets : List OpxRelPackageSet)
      (s : OpxRelPackageSet), s ∈ sets →
      { s with package_lists := s.package_lists.map (filterPkgList rootfs) } ∈
        filter_packages rootfs sets) := by
  constructor
  · intro rootfs pl p hp
    refine ⟨?_, ?_, ?_⟩
    · intro hflag
      exact List.mem_filter.mpr ⟨hp, by simp [hflag]⟩
    · intro hflag hname hmem
      have h2 := (List.mem_filter.mp hmem).2
      rw [hflag] at h2
      have h3 : rootfs.contains p.name = true := List.elem_iff.mpr hname
      rw [h3] at h2
      simp at h2
    · intro hname
      refine List.mem_filter.mpr ⟨hp, ?_⟩
      simp
      exact Or.inr hname
  · intro rootfs sets s hs
    exact List.mem_map_of_mem _ hs

/-- Claim C9 instantiated on one-element lists. -/
theorem claim_c9_witness :
    (⟨"foo".data, none⟩ : OpxRelPackage) ∉
      (filterPkgList ["foo".data] ⟨[⟨"foo".data, none⟩], false⟩).packages ∧
    (⟨"foo".data, none⟩ : OpxRelPackage) ∈
      (filterPkgList ["foo".data] ⟨[⟨"foo".data, none⟩], true⟩).packages ∧
    (⟨"bar".data, none⟩ : OpxRelPackage) ∈
      (filterPkgList ["foo".data] ⟨[⟨"bar".data, none⟩], false⟩).packages :=
  ⟨(claim_c9.1 ["foo".data] ⟨[⟨"foo".data, none⟩], false⟩ ⟨"foo".data, none⟩
      (by decide)).2.1 rfl (by decide),
   (claim_c9.1 ["foo".data] ⟨[⟨"foo".data, none⟩], true⟩ ⟨"foo".data, none⟩
      (by decide)).1 rfl,
   (claim_c9.1 ["foo".data] ⟨[⟨"bar".data, none⟩], false⟩ ⟨"bar".data, none⟩
      (by decide)).2.2 (by decide)⟩

/-- C10: wrapped versions compare equal exactly when their parent
package names and version strings both agree, equal wrappers have equal
hash keys, and intersection membership is governed by precisely this
pair: a wrapper belongs to the intersection of two sets iff it is
wrapper-equal to a member of each. -/
theorem claim_c10 :
    (∀ a b : APTVer,
      (vwBEq a b = true ↔ a.parent.name = b.parent.name ∧ a.verStr = b.verStr) ∧
      (vwBEq a b = true → vwKey a = vwKey b)) ∧
    (∀ (a : APTVer) (l1 l2 : List APTVer),
      vwMember a (interVW l1 l2) = (vwMember a l1 && vwMember a l2)) := by
  constructor
  · intro a b
    constructor
    · simp [vwBEq]
    · intro h
      rw [vwBEq_eq_key] at h
      exact of_decide_eq_true h
  · intro a l1 l2
    exact vwMember_inter a l1 l2

/-- Claim C10 instantiated on concrete wrappers. -/
theorem claim_c10_witness :
    vwKey wNative = vwKey wNative ∧
    vwMember wNative (interVW [wNative] [wLoose]) =
      (vwMember wNative [wNative] && vwMember wNative [wLoose]) :=
  ⟨(claim_c10.1 wNative wNative).2 (by decide),
   claim_c10.2 wNative [wNative] [wLoose]⟩
